import Mathlib

/-!
Verification of the OpenAPI-driven endpoint registry and request-dispatch
engine of the uwmcp repository (src/schemas.py, src/uwmcp/tools/generic.py).

Python values are modelled by the inductive type `Py`; Python dictionaries
are association lists with first-occurrence lookup and in-place update
(real dictionaries never hold duplicate keys).  Python functions that can
raise are modelled with the `PRes` result type, whose `exn` constructor
stands for a raised exception and whose `div` constructor stands for
non-termination (reached only when a fuel bound is exhausted; the Python
originals can loop forever on cyclic `$ref` chains).
-/

namespace Uwmcp

/-- Keys of a Python dictionary as they occur in a parsed YAML document:
either a string or an integer (YAML parses an unquoted `200:` as an int). -/
inductive PyKey where
  | s (v : String)
  | i (n : Int)
deriving DecidableEq, Repr

/-- A Python/YAML value: None, bool, int, string, list or dict. -/
inductive Py where
  | none
  | bool (b : Bool)
  | int (n : Int)
  | str (s : String)
  | list (xs : List Py)
  | dict (kvs : List (PyKey × Py))
deriving Repr, Inhabited

/-- Result of running a piece of Python code: a value, a raised exception,
or divergence (only produced when the modelling fuel runs out). -/
inductive PRes (α : Type) where
  | ok (a : α)
  | exn
  | div
deriving Repr, DecidableEq

def PRes.bind : PRes α → (α → PRes β) → PRes β
  | .ok a, f => f a
  | .exn, _ => .exn
  | .div, _ => .div

def PRes.map (f : α → β) : PRes α → PRes β
  | .ok a => .ok (f a)
  | .exn => .exn
  | .div => .div

instance : Monad PRes where
  pure := PRes.ok
  bind := PRes.bind
  map := PRes.map

namespace Py

/-- Dictionary lookup (Python `d.get(k)` / `k in d`): first occurrence wins. -/
def getKey (kvs : List (PyKey × Py)) (k : PyKey) : Option Py :=
  match kvs with
  | [] => Option.none
  | (k', v) :: rest => if k' = k then some v else getKey rest k

/-- Python `d.get(k, default)`. -/
def getKeyD (kvs : List (PyKey × Py)) (k : PyKey) (dflt : Py) : Py :=
  (getKey kvs k).getD dflt

/-- Python `k in d` for a dictionary. -/
def hasKey (kvs : List (PyKey × Py)) (k : PyKey) : Bool :=
  (getKey kvs k).isSome

/-- Python dictionary assignment `d[k] = v`: replaces the value in place at
an existing key, otherwise appends the new pair at the end. -/
def dictInsert (kvs : List (PyKey × Py)) (k : PyKey) (v : Py) : List (PyKey × Py) :=
  match kvs with
  | [] => [(k, v)]
  | (k', v') :: rest => if k' = k then (k, v) :: rest else (k', v') :: dictInsert rest k v

/-- Python truthiness: None, False, 0, "", [] and the empty dict are falsy. -/
def truthy : Py → Bool
  | .none => false
  | .bool b => b
  | .int n => n ≠ 0
  | .str s => s ≠ ""
  | .list xs => !xs.isEmpty
  | .dict kvs => !kvs.isEmpty

/-- Python `a or b`: the left value when truthy, otherwise the right. -/
def pyOr (a b : Py) : Py := if truthy a then a else b

/-- Python `x or {}` applied to an `Optional` value (used on the result of
resolve_ref): None and falsy values both collapse to the empty dict. -/
def orEmptyDict (a : Py) : Py := pyOr a (.dict [])

/-- Python `x == "lit"` where x is an arbitrary value: true exactly when x
is that very string (values of other types never equal a str). -/
def eqStr (v : Py) (s : String) : Bool :=
  match v with
  | .str t => t = s
  | _ => false

end Py

/-! ### String helpers mirroring the Python string operations used. -/

/-- Code-point comparison of strings, as Python compares str values. -/
def strLt (a b : List Char) : Bool :=
  match a, b with
  | [], [] => false
  | [], _ :: _ => true
  | _ :: _, [] => false
  | c :: cs, d :: ds => if c.toNat < d.toNat then true
      else if d.toNat < c.toNat then false else strLt cs ds

def strLtS (a b : String) : Bool := strLt a.data b.data

/-- Insert into a sorted list of strings (ascending). -/
def insStr (x : String) : List String → List String
  | [] => [x]
  | y :: ys => if strLtS y x then y :: insStr x ys else x :: y :: ys

/-- Python `sorted(...)` on a list of strings (insertion sort, ascending
code-point order). -/
def sortStr : List String → List String
  | [] => []
  | x :: xs => insStr x (sortStr xs)

/-- Python `set(...)` on strings, modelled as first-occurrence deduplication
(the set only feeds membership tests and `sorted`, so order is irrelevant). -/
def pySet : List String → List String
  | [] => []
  | x :: xs => if (pySet xs).contains x then pySet xs else x :: pySet xs

/-- Python `sorted(list(set(l)))` for a list of strings. -/
def sortedSet (l : List String) : List String := sortStr (pySet l)

/-- Whether a character list occurs as a contiguous run inside another
(Python substring membership `needle in hay`). -/
def listInfix (needle hay : List Char) : Bool :=
  if needle.isPrefixOf hay then true
  else match hay with
    | [] => needle.isEmpty
    | _ :: rest => listInfix needle rest

/-- Python `needle in hay` for strings. -/
def strIn (needle hay : String) : Bool := listInfix needle.data hay.data

/-- Python `s.lower()` (the paths involved are ASCII). -/
def pyLower (s : String) : String := ⟨s.data.map Char.toLower⟩

/-- Python `s.strip()` (whitespace strip at both ends). -/
def pyStrip (s : String) : String :=
  ⟨((s.data.dropWhile Char.isWhitespace).reverse.dropWhile Char.isWhitespace).reverse⟩

/-- Python `s.strip("/")`: drop slashes at both ends. -/
def stripSlashes (s : String) : String :=
  ⟨((s.data.dropWhile (· = '/')).reverse.dropWhile (· = '/')).reverse⟩

/-- Python `s.rstrip("/")`: drop trailing slashes. -/
def rstripSlashes (s : String) : String :=
  ⟨(s.data.reverse.dropWhile (· = '/')).reverse⟩

/-- Character-level prefix test (Python `s.startswith(pre)`). -/
def strStartsWith (s pre : String) : Bool := pre.data.isPrefixOf s.data

/-- Character-level suffix test (Python `s.endswith(suf)`). -/
def strEndsWith (s suf : String) : Bool := suf.data.isSuffixOf s.data

/-- Python slicing `s[n:]` (drop the first n characters). -/
def strDropN (s : String) (n : Nat) : String := ⟨s.data.drop n⟩

/-- Python slicing `s[:-n]` (drop the last n characters). -/
def strDropRightN (s : String) (n : Nat) : String := ⟨(s.data.reverse.drop n).reverse⟩

/-- The accumulator loop of a single-character split. -/
def splitCharAux (sep : Char) : List Char → List Char → List String
  | [], acc => [⟨acc.reverse⟩]
  | c :: cs, acc =>
      if c = sep then (⟨acc.reverse⟩ : String) :: splitCharAux sep cs []
      else splitCharAux sep cs (c :: acc)

/-- Python `s.split("/")`: split on every slash, keeping empty pieces
(the empty string splits to a single empty piece). -/
def pySplitSlash (s : String) : List String := splitCharAux '/' s.data []

/-- The scanning loop of Python `s.replace(pat, repl)` for a non-empty
pattern: left-to-right, non-overlapping, never rescanning a replacement;
the skip counter carries the remaining characters of a matched pattern. -/
def replaceGo (pat repl : List Char) : Nat → List Char → List Char
  | _, [] => []
  | n + 1, _ :: cs => replaceGo pat repl n cs
  | 0, c :: cs =>
      if pat.isPrefixOf (c :: cs) then repl ++ replaceGo pat repl (pat.length - 1) cs
      else c :: replaceGo pat repl 0 cs

/-- Python `s.replace(pat, repl)`: every occurrence replaced; an empty
pattern inserts the replacement before every character and at the end. -/
def pyReplace (s pat repl : String) : String :=
  match pat.data with
  | [] => ⟨repl.data ++ s.data.foldr (fun c acc => c :: (repl.data ++ acc)) []⟩
  | p :: ps => ⟨replaceGo (p :: ps) repl.data 0 s.data⟩

/-- Escapes used by Python repr of a string (backslash, quote and the
common control characters; sufficient for the values exercised here). -/
def reprEsc (s : String) : String :=
  ⟨s.data.foldr (fun c acc =>
    if c = '\\' then '\\' :: '\\' :: acc
    else if c = Char.ofNat 39 then '\\' :: Char.ofNat 39 :: acc
    else if c = '\n' then '\\' :: 'n' :: acc
    else if c = '\r' then '\\' :: 'r' :: acc
    else if c = '\t' then '\\' :: 't' :: acc
    else c :: acc) []⟩

mutual

/-- Python `repr(v)`. -/
def pyRepr : Py → String
  | .none => "None"
  | .bool b => if b then "True" else "False"
  | .int n => toString n
  | .str s => "\x27" ++ reprEsc s ++ "\x27"
  | .list xs => "[" ++ String.intercalate ", " (pyReprList xs) ++ "]"
  | .dict kvs => "\x7b" ++ String.intercalate ", " (pyReprEntries kvs) ++ "\x7d"

def pyReprList : List Py → List String
  | [] => []
  | x :: xs => pyRepr x :: pyReprList xs

def pyReprEntries : List (PyKey × Py) → List String
  | [] => []
  | (.s k, v) :: rest => ("\x27" ++ reprEsc k ++ "\x27: " ++ pyRepr v) :: pyReprEntries rest
  | (.i k, v) :: rest => (toString k ++ ": " ++ pyRepr v) :: pyReprEntries rest

end

/-- Python `str(v)`: the string itself for str values, repr-style rendering
for containers, `None`/`True`/`False` for the singletons. -/
def pyStr : Py → String
  | .str s => s
  | v => pyRepr v

/-! ### Placeholder extraction

Embedding of `re.findall(r"\x5c\x7b([^/\x7d]+)\x7d", path)` used by
`_path_param_names` (src/schemas.py) and `_split_params_for_path`
(src/uwmcp/tools/generic.py): a left-to-right scan capturing maximal runs of
characters other than a slash or closing brace between literal braces;
failed attempts restart one position after the opening brace, successful
matches continue after the closing brace (non-overlapping findall). -/

def phScan : Option (List Char) → List Char → List String
  | Option.none, [] => []
  | Option.none, c :: cs =>
      if c = '\x7b' then phScan (some []) cs else phScan Option.none cs
  | some _, [] => []
  | some acc, c :: cs =>
      if c = '\x7d' then
        match acc with
        | [] => phScan Option.none cs
        | _ => ⟨acc.reverse⟩ :: phScan Option.none cs
      else if c = '/' then phScan Option.none cs
      else phScan (some (c :: acc)) cs

/-- All placeholder captures of a path template, in order of occurrence. -/
def pyFindPlaceholders (s : String) : List String := phScan Option.none s.data

/-- Embedding of `_path_param_names` (src/schemas.py): the set of
brace-delimited placeholder names of a template. -/
def pathParamNamesOf (tmpl : String) : List String := pySet (pyFindPlaceholders tmpl)

/-! ### Path matcher (src/uwmcp/tools/generic.py, _infer_template_and_params) -/

/-- Embedding of the local `split_segments` helper: strip surrounding
whitespace, normalize slashes, split on `/` and drop empty segments. -/
def splitSegments (p : String) : List String :=
  let p := pyStrip p
  if p = "" then []
  else
    let p := if strStartsWith p "/" then p else "/" ++ p
    let p := rstripSlashes p
    (pySplitSlash p).filter (· ≠ "")

/-- Python dict assignment on a string-keyed dictionary (used for the
inferred path-parameter map). -/
def strDictInsert (kvs : List (String × String)) (k v : String) : List (String × String) :=
  match kvs with
  | [] => [(k, v)]
  | (k', v') :: rest => if k' = k then (k, v) :: rest else (k', v') :: strDictInsert rest k v

/-- A scoring candidate of the matcher: literal-segment matches, number of
inferred parameters, the template, and the inferred path-parameter map
(the source stores `(static_matches, -len(inferred), template, inferred)`;
the negation is folded into the comparison below). -/
abbrev Cand := Nat × Nat × String × List (String × String)

/-- The pairwise segment walk of `_infer_template_and_params`: brace-wrapped
template segments bind the concrete segment (an empty name disqualifies),
literal segments must match exactly. -/
def matchSegsGo (inferred : List (String × String)) (staticM : Nat) :
    List String → List String → Option (Nat × List (String × String))
  | [], [] => some (staticM, inferred)
  | tseg :: ts, cseg :: cs =>
      if strStartsWith tseg "\x7b" && strEndsWith tseg "\x7d" then
        let pname := strDropRightN (strDropN tseg 1) 1
        if pname = "" then Option.none
        else matchSegsGo (strDictInsert inferred pname cseg) staticM ts cs
      else if tseg = cseg then matchSegsGo inferred (staticM + 1) ts cs
      else Option.none
  | _, _ => Option.none

/-- The candidate a template contributes for a concrete path's segments:
discarded on a segment-count mismatch or a failed pairwise walk. -/
def candidateOf (csegs : List String) (template : String) : Option Cand :=
  let tsegs := splitSegments template
  if tsegs.length ≠ csegs.length then Option.none
  else (matchSegsGo [] 0 tsegs csegs).map (fun r => (r.1, r.2.length, template, r.2))

/-- The candidate list of the matcher, in registry iteration order. -/
def inferCandidates (concrete : String) (registryKeys : List String) : List Cand :=
  registryKeys.filterMap (candidateOf (splitSegments concrete))

/-- Strict "greater than" on candidates as Python compares the stored
tuples `(static_matches, -len(inferred), template, inferred)`: more literal
matches first, then fewer inferred parameters, then the later template in
code-point order.  Two candidates with the same template also carry the
same inferred map, so the tuple comparison never reaches the dicts. -/
def candGt (a b : Cand) : Bool :=
  if a.1 ≠ b.1 then b.1 < a.1
  else if a.2.1 ≠ b.2.1 then a.2.1 < b.2.1
  else strLtS b.2.2.1 a.2.2.1

/-- Head of the reverse-sorted candidate list: Python's stable
`sort(reverse=True)` followed by `candidates[0]` selects the earliest
candidate that no other candidate strictly exceeds. -/
def pickTop : List Cand → Option Cand
  | [] => Option.none
  | c :: cs => some (cs.foldl (fun best x => if candGt x best then x else best) c)

/-- Embedding of `_infer_template_and_params`: the best-matching template
and its inferred path parameters for a concrete path, if any template
survives. -/
def inferTemplateAndParams (concrete : String) (registryKeys : List String) :
    Option (String × List (String × String)) :=
  (pickTop (inferCandidates concrete registryKeys)).map (fun c => (c.2.2.1, c.2.2.2))

/-! ### Path formatting and parameter splitting -/

/-- Embedding of `_format_path`: successively replace every occurrence of
each brace-wrapped key by the string form of its value. -/
def formatPath (tmpl : String) (pathParams : List (String × Py)) : String :=
  pathParams.foldl (fun path kv => pyReplace path ("\x7b" ++ kv.1 ++ "\x7d") (pyStr kv.2)) tmpl

/-- Embedding of `_split_params_for_path`: parameters whose key is a
placeholder of the template are path-bound, the rest are query-bound. -/
def splitParamsForPath (tmpl : String) (params : List (String × Py)) :
    List (String × Py) × List (String × Py) :=
  let pathKeys := pathParamNamesOf tmpl
  (params.filter (fun kv => pathKeys.contains kv.1),
   params.filter (fun kv => !pathKeys.contains kv.1))

/-! ### Request dispatcher (src/uwmcp/tools/generic.py, call_get_internal)

The registry consulted by the dispatcher is the output of
`build_registry_shallow`; the dispatcher reads only the registry's keys and
each entry's `pathParamNames` and `queryParamNames` fields (every built
entry carries both), so a dispatch-side entry is modelled by exactly those
two fields. -/

/-- The fields of a shallow registry entry that dispatch validation reads. -/
structure RegEntry where
  pathParamNames : List String
  queryParamNames : List String
deriving Repr

/-- First-occurrence lookup in the registry (Python `registry.get(path)`). -/
def regGet (reg : List (String × RegEntry)) (path : String) : Option RegEntry :=
  match reg with
  | [] => Option.none
  | (p, e) :: rest => if p = path then some e else regGet rest path

/-- Embedding of `get_allowed_query_param_names`: the entry's
queryParamNames as a set, empty when the path is unknown. -/
def getAllowedQueryParamNames (reg : List (String × RegEntry)) (path : String) : List String :=
  match regGet reg path with
  | some e => pySet e.queryParamNames
  | Option.none => []

/-- Embedding of `get_path_param_names`: the entry's pathParamNames as a
set, falling back to placeholder extraction from the path itself when the
path has no registry entry. -/
def getPathParamNames (reg : List (String × RegEntry)) (path : String) : List String :=
  match regGet reg path with
  | some e => pySet e.pathParamNames
  | Option.none => pathParamNamesOf path

/-- Lookup in a caller-supplied parameter dictionary. -/
def paramsGet (params : List (String × Py)) (k : String) : Option Py :=
  match params with
  | [] => Option.none
  | (k', v) :: rest => if k' = k then some v else paramsGet rest k

def paramsGetD (params : List (String × Py)) (k : String) : Py :=
  (paramsGet params k).getD .none

def paramsHas (params : List (String × Py)) (k : String) : Bool :=
  (paramsGet params k).isSome

/-- Literal-overlap score of `_best_suggestion`: the number of positions at
which a non-placeholder template segment equals the concrete segment. -/
def suggestScore : List String → List String → Int
  | [], _ => 0
  | _, [] => 0
  | t :: ts, c :: cs =>
      (if !(strStartsWith t "\x7b" && strEndsWith t "\x7d") && t = c then 1 else 0)
        + suggestScore ts cs

/-- Embedding of the nested `_best_suggestion` helper of
`call_get_internal`: among templates with the same segment count, the first
one attaining the maximal literal-overlap score (no binding required). -/
def bestSuggestion (concrete : String) (keys : List String) : Option String :=
  let csegs := (pySplitSlash (stripSlashes concrete)).filter (· ≠ "")
  (keys.foldl (fun (best : Option String × Int) tpl =>
      let tsegs := (pySplitSlash (stripSlashes tpl)).filter (· ≠ "")
      if tsegs.length ≠ csegs.length then best
      else
        let score := suggestScore tsegs csegs
        if best.2 < score then (some tpl, score) else best)
    (Option.none, -1)).1

/-- The unknown-path error payload of `call_get_internal`. -/
def unknownPathPayload (path : String) (keys : List String) : Py :=
  .dict [(.s "error", .str ("Unknown GET path: " ++ path)),
         (.s "suggested_template",
           match bestSuggestion path keys with
           | some t => .str t
           | Option.none => .none),
         (.s "known_paths", .list (((sortStr keys).take 50).map .str))]

/-- The path-parameter-mismatch error payload of `call_get_internal`. -/
def mismatchPayload (k v fromParams template : String) : Py :=
  .dict [(.s "error", .str "Path parameter mismatch"), (.s "param", .str k),
         (.s "from_path", .str v), (.s "from_params", .str fromParams),
         (.s "template", .str template)]

/-- The missing-path-parameters error payload of `call_get_internal`. -/
def missingPayload (missing : List String) (path : String) : Py :=
  .dict [(.s "error", .str "Missing path parameters"),
         (.s "missing", .list (missing.map .str)), (.s "path", .str path)]

/-- The unknown-query-parameters error payload of `call_get_internal`. -/
def unknownQueryPayload (unknown allowed : List String) (path : String) : Py :=
  .dict [(.s "error", .str "Unknown query parameters"),
         (.s "unknown", .list (unknown.map .str)),
         (.s "allowed", .list (allowed.map .str)),
         (.s "path", .str path)]

/-- The conflict scan of `call_get_internal`: the first inferred
path-parameter pair whose key the caller also supplied with a different
string form. -/
def findConflict (inferred : List (String × String)) (params : List (String × Py)) :
    Option (String × String) :=
  match inferred with
  | [] => Option.none
  | (k, v) :: rest =>
      match paramsGet params k with
      | some pv => if pyStr pv ≠ v then some (k, v) else findConflict rest params
      | Option.none => findConflict rest params

/-- The merge loop of `call_get_internal`: `effective_params.setdefault(k, v)`
for every inferred pair, never overwriting a caller-supplied value. -/
def mergeSetdefault (params : List (String × Py)) (inferred : List (String × String)) :
    List (String × Py) :=
  inferred.foldl (fun ps kv => if paramsHas ps kv.1 then ps else ps ++ [(kv.1, Py.str kv.2)]) params

/-- The effective-path resolution step of `call_get_internal`: a direct
registry key is used as-is; otherwise the path matcher runs, a conflicting
inferred value fails with the mismatch payload, and on success the inferred
values are merged and validation switches to the matched template; an
unmatched path fails with the unknown-path payload. -/
def resolveEffective (reg : List (String × RegEntry)) (path : String)
    (params : List (String × Py)) : Except Py (String × List (String × Py)) :=
  if (reg.map Prod.fst).contains path then .ok (path, params)
  else
    match inferTemplateAndParams path (reg.map Prod.fst) with
    | some (template, inferred) =>
        match findConflict inferred params with
        | some (k, v) => .error (mismatchPayload k v (pyStr (paramsGetD params k)) template)
        | Option.none => .ok (template, mergeSetdefault params inferred)
    | Option.none => .error (unknownPathPayload path (reg.map Prod.fst))

/-- Outcome of the pure prefix of `call_get_internal`: either a structured
error payload returned to the caller, or the upstream GET request the
function goes on to issue (real path plus query parameters). -/
inductive DispatchOutcome where
  | errorResult (payload : Py)
  | request (realPath : String) (queryParams : List (String × Py))
deriving Repr

/-- Embedding of `call_get_internal` up to the upstream call: resolve the
effective template, split parameters, validate missing path parameters and
unknown query parameters, substitute the real path.  A `request` outcome is
the point at which the source issues `client.get`. -/
def callGetInternal (reg : List (String × RegEntry)) (path : String)
    (params : List (String × Py)) : DispatchOutcome :=
  match resolveEffective reg path params with
  | .error e => .errorResult e
  | .ok (effPath, effParams) =>
      let allowedQuery := getAllowedQueryParamNames reg effPath
      let requiredPath := getPathParamNames reg effPath
      let pq := splitParamsForPath effPath effParams
      let missing := sortStr (requiredPath.filter (fun k => !(pq.1.map Prod.fst).contains k))
      if missing ≠ [] then .errorResult (missingPayload missing effPath)
      else
        let unknown := sortStr ((pq.2.map Prod.fst).filter (fun k => !allowedQuery.contains k))
        if unknown ≠ [] then
          .errorResult (unknownQueryPayload unknown (sortStr allowedQuery) effPath)
        else .request (formatPath effPath pq.1) pq.2

/-! ### Response normalization (the JSON branch of call_get_internal) -/

/-- The derived tool name: the real path's slashes turned into underscores
with braces stripped, falling back to the server name when empty. -/
def toolNameOf (realPath : String) : String :=
  let t := pyReplace (pyReplace (pyReplace (stripSlashes realPath) "/" "_") "\x7b" "") "\x7d" ""
  if t = "" then "uwmcp" else t

/-- The content-type classification of `call_get_internal`, applied to the
lowercased resolved real path: darkpool first, then options without chain,
then market/movers, otherwise generic JSON. -/
def classifyContent (realPath : String) : String :=
  let lower := pyLower realPath
  if strIn "darkpool" lower then "darkpool_trades"
  else if strIn "options" lower && !(strIn "chain" lower) then "options_flow"
  else if strIn "market/movers" lower then "market_movers"
  else "json"

/-- JSON escapes for string serialization (backslash, double quote and the
common control characters). -/
def jsonEsc (s : String) : String :=
  ⟨s.data.foldr (fun c acc =>
    if c = '\\' then '\\' :: '\\' :: acc
    else if c = '"' then '\\' :: '"' :: acc
    else if c = '\n' then '\\' :: 'n' :: acc
    else if c = '\r' then '\\' :: 'r' :: acc
    else if c = '\t' then '\\' :: 't' :: acc
    else c :: acc) []⟩

mutual

/-- Python `json.dumps` on the modelled values (int dictionary keys become
JSON strings, as the json module renders them). -/
def jsonDumps : Py → String
  | .none => "null"
  | .bool b => if b then "true" else "false"
  | .int n => toString n
  | .str s => "\"" ++ jsonEsc s ++ "\""
  | .list xs => "[" ++ String.intercalate ", " (jsonDumpsList xs) ++ "]"
  | .dict kvs => "\x7b" ++ String.intercalate ", " (jsonDumpsEntries kvs) ++ "\x7d"

def jsonDumpsList : List Py → List String
  | [] => []
  | x :: xs => jsonDumps x :: jsonDumpsList xs

def jsonDumpsEntries : List (PyKey × Py) → List String
  | [] => []
  | (.s k, v) :: rest => ("\"" ++ jsonEsc k ++ "\": " ++ jsonDumps v) :: jsonDumpsEntries rest
  | (.i k, v) :: rest => ("\"" ++ toString k ++ "\": " ++ jsonDumps v) :: jsonDumpsEntries rest

end

/-- The structured envelope `call_get_internal` returns for a successfully
parsed JSON response: the raw JSON as opaque text plus the semantic ttg
block with the derived tool name and content classification. -/
def jsonEnvelope (realPath : String) (data : Py) : Py :=
  .dict [(.s "content", .list
    [.dict [(.s "type", .str "text"), (.s "text", .str (jsonDumps data))],
     .dict [(.s "type", .str "ttg"),
            (.s "ttg", .dict [(.s "toolName", .str (toolNameOf realPath)),
                              (.s "contentType", .str (classifyContent realPath)),
                              (.s "data", data)])]])]

/-! ### Reference resolver (src/schemas.py, resolve_ref) -/

/-- The walking loop of `resolve_ref`: `node = node.get(part)` for every
pointer segment, returning None as soon as a lookup yields None.  Calling
`.get` on a non-dictionary node raises AttributeError, modelled by `exn`. -/
def refWalk : Py → List String → PRes Py
  | node, [] => .ok node
  | node, part :: rest =>
      match node with
      | .dict kvs =>
          match Py.getKeyD kvs (.s part) .none with
          | .none => .ok .none
          | v => refWalk v rest
      | _ => .exn

/-- Embedding of `resolve_ref`: a non-string ref or one that does not start
with the fragment prefix yields None; otherwise the pointer segments are
walked through the document. -/
def resolveRef (spec ref : Py) : PRes Py :=
  match ref with
  | .str s => if strStartsWith s "#/" then refWalk spec (pySplitSlash (strDropN s 2)) else .ok .none
  | _ => .ok .none

/-- Modelled from the spec: the referenced node of a pointer, following the
contract "resolve(spec, ref) -> node | absent" — present exactly when every
segment exists as a mapping key along the walk, absent otherwise, never an
exception.  Used to compare the source's resolve_ref against the spec's
words. -/
def getPath : Py → List String → Option Py
  | v, [] => some v
  | .dict kvs, p :: ps =>
      match Py.getKey kvs (.s p) with
      | some v => getPath v ps
      | Option.none => Option.none
  | _, _ :: _ => Option.none

/-! ### Shallow schema simplification (src/schemas.py, _simplify_schema) -/

/-- The descriptive-key allow-list of `_simplify_schema`. -/
def allow4 : List String := ["type", "format", "enum", "title"]

/-- The allow-list filter: the keys of `allow4` present in the schema, in
allow-list order, with their original values. -/
def allowFilter (kvs : List (PyKey × Py)) : List (PyKey × Py) :=
  allow4.filterMap (fun k => (Py.getKey kvs (.s k)).map (fun v => (PyKey.s k, v)))

/-- Embedding of `_simplify_schema`.  The function recurses on the node a
`$ref` resolves to (both at the top level and below `items`), so a chain of
references is followed hop by hop; the fuel argument makes that recursion
total, with exhaustion (`div`) standing for the Python original looping
forever on a cyclic reference chain. -/
def simplifySchema : Nat → Py → Py → PRes Py
  | 0, _, _ => .div
  | fuel + 1, spec, schema =>
      match schema with
      | .dict kvs =>
          if Py.hasKey kvs (.s "$ref") then
            match resolveRef spec (Py.getKeyD kvs (.s "$ref") .none) with
            | .ok t => simplifySchema fuel spec (Py.orEmptyDict t)
            | .exn => .exn
            | .div => .div
          else
            let summary := allowFilter kvs
            match Py.getKey kvs (.s "items") with
            | some items =>
                match items with
                | .dict ikvs =>
                    if Py.hasKey ikvs (.s "$ref") then
                      match resolveRef spec (Py.getKeyD ikvs (.s "$ref") .none) with
                      | .ok ti =>
                          (simplifySchema fuel spec (Py.orEmptyDict ti)).map
                            (fun iv => .dict (summary ++ [(.s "items", iv)]))
                      | .exn => .exn
                      | .div => .div
                    else .ok (.dict (summary ++ [(.s "items", .dict (allowFilter ikvs))]))
                | _ => .ok (.dict (summary ++ [(.s "items", items)]))
            | Option.none => .ok (.dict summary)
      | other => .ok other

/-- Modelled from the spec: shallow simplify that "resolves at most one
level of $ref, then retains only a fixed allow-list of descriptive keys
plus a single level of items summarization" — after the single hop the
resolved node is summarized without any further resolution.  Used to
compare the source's behaviour on chained references against the spec's
words. -/
def specOneHopSimplify (spec schema : Py) : PRes Py :=
  let summarize : Py → Py := fun node =>
    match node with
    | .dict kvs =>
        let summary := allowFilter kvs
        match Py.getKey kvs (.s "items") with
        | some (.dict ikvs) => .dict (summary ++ [(.s "items", .dict (allowFilter ikvs))])
        | some items => .dict (summary ++ [(.s "items", items)])
        | Option.none => .dict summary
    | other => other
  match schema with
  | .dict kvs =>
      if Py.hasKey kvs (.s "$ref") then
        match resolveRef spec (Py.getKeyD kvs (.s "$ref") .none) with
        | .ok t => .ok (summarize (Py.orEmptyDict t))
        | .exn => .exn
        | .div => .div
      else .ok (summarize schema)
  | other => .ok other

/-! ### Deep resolution (src/schemas.py, deep_resolve) -/

/-- The merge loop of `deep_resolve`: assign each non-`$ref` sibling's
resolved value (under the supplied resolver) into the merged dictionary. -/
def mergeWith (f : Py → PRes Py) :
    List (PyKey × Py) → List (PyKey × Py) → PRes (List (PyKey × Py))
  | merged, [] => .ok merged
  | merged, (k, v) :: rest =>
      if k = .s "$ref" then mergeWith f merged rest
      else
        match f v with
        | .ok dv => mergeWith f (Py.dictInsert merged k dv) rest
        | .exn => .exn
        | .div => .div

/-- Resolve every value of a dictionary without a `$ref`. -/
def dictValsWith (f : Py → PRes Py) : List (PyKey × Py) → PRes (List (PyKey × Py))
  | [] => .ok []
  | (k, v) :: rest =>
      match f v with
      | .ok dv => (dictValsWith f rest).map (fun r => (k, dv) :: r)
      | .exn => .exn
      | .div => .div

/-- Resolve every element of a list. -/
def listValsWith (f : Py → PRes Py) : List Py → PRes (List Py)
  | [] => .ok []
  | x :: xs =>
      match f x with
      | .ok dx => (listValsWith f xs).map (fun r => dx :: r)
      | .exn => .exn
      | .div => .div

/-- Embedding of `deep_resolve`: recursively inline every `$ref`, merging
the referenced node's resolved fields first and the sibling fields on top
(siblings win on key collision).  The fuel, consumed once per nesting
level, bounds the non-structural recursion through resolved reference
targets. -/
def deepResolve : Nat → Py → Py → PRes Py
  | 0, _, _ => .div
  | fuel + 1, spec, obj =>
      match obj with
      | .dict kvs =>
          if Py.hasKey kvs (.s "$ref") then
            match resolveRef spec (Py.getKeyD kvs (.s "$ref") .none) with
            | .ok t =>
                match deepResolve fuel spec (Py.orEmptyDict t) with
                | .ok (.dict base) => (mergeWith (deepResolve fuel spec) base kvs).map .dict
                | .ok _ => .exn
                | .exn => .exn
                | .div => .div
            | .exn => .exn
            | .div => .div
          else (dictValsWith (deepResolve fuel spec) kvs).map .dict
      | .list xs => (listValsWith (deepResolve fuel spec) xs).map .list
      | x => .ok x

/-! ### Shallow parameter extraction (src/schemas.py, get_parameters_shallow) -/

/-- Processing of one raw parameter node by `get_parameters_shallow`:
inline a one-level `$ref`, skip non-dictionaries, keep name/in/required and
a shallow-simplified schema.  Returns `Option.none` for a skipped node. -/
def gpsOne (fuel : Nat) (spec p : Py) : PRes (Option Py) := do
  let p ← match p with
    | .dict kvs =>
        if Py.hasKey kvs (.s "$ref") then
          match resolveRef spec (Py.getKeyD kvs (.s "$ref") .none) with
          | .ok t => pure (Py.orEmptyDict t)
          | .exn => PRes.exn
          | .div => PRes.div
        else pure p
    | .str s => if strIn "$ref" s then PRes.exn else pure p
    | .list xs => if xs.any (fun e => Py.eqStr e "$ref") then PRes.exn else pure p
    | _ => PRes.exn
  match p with
  | .dict kvs =>
      let base := [(PyKey.s "name", Py.getKeyD kvs (.s "name") .none),
                   (PyKey.s "in", Py.getKeyD kvs (.s "in") .none),
                   (PyKey.s "required", Py.getKeyD kvs (.s "required") (.bool false))]
      if Py.hasKey kvs (.s "schema") then do
        let sc ← simplifySchema fuel spec (Py.getKeyD kvs (.s "schema") .none)
        pure (some (Py.dict (base ++ [(.s "schema", sc)])))
      else pure (some (Py.dict base))
  | _ => pure Option.none

/-- The iteration of `get_parameters_shallow` over the raw parameter list. -/
def gpsList (fuel : Nat) (spec : Py) : List Py → PRes (List Py)
  | [] => .ok []
  | p :: ps => do
      let r ← gpsOne fuel spec p
      let rest ← gpsList fuel spec ps
      match r with
      | some simple => pure (simple :: rest)
      | Option.none => pure rest

/-- Embedding of `get_parameters_shallow`: iterate `op["parameters"]`
(defaulting to the empty list), inline one `$ref` level per parameter and
simplify schemas shallowly.  Iterating a string or a dictionary of
harmless keys yields no dictionaries, hence an empty result; iterating a
non-iterable raises. -/
def getParametersShallow (fuel : Nat) (spec op : Py) : PRes (List Py) :=
  match op with
  | .dict okvs =>
      match Py.pyOr (Py.getKeyD okvs (.s "parameters") (.list [])) (.list []) with
      | .list ps => gpsList fuel spec ps
      | .str _ => .ok []
      | .dict pkvs =>
          if pkvs.all (fun kv => match kv.1 with
              | .s k => !strIn "$ref" k
              | .i _ => false) then .ok [] else .exn
      | _ => .exn
  | _ => .exn

/-! ### Shallow response schema (src/schemas.py, extract_response_schema_shallow) -/

/-- Embedding of `extract_response_schema_shallow`: probe the `"200"`,
integer `200`, then `"default"` response in that order, walk down to the
application/json schema, and simplify it shallowly; an absent or falsy
schema yields None. -/
def extractResponseSchemaShallow (fuel : Nat) (spec op : Py) : PRes Py :=
  match op with
  | .dict okvs =>
      match Py.pyOr (Py.getKeyD okvs (.s "responses") (.dict [])) (.dict []) with
      | .dict rkvs =>
          let okNode := Py.pyOr (Py.getKeyD rkvs (.s "200") .none)
            (Py.pyOr (Py.getKeyD rkvs (.i 200) .none) (Py.getKeyD rkvs (.s "default") .none))
          if !Py.truthy okNode then .ok .none
          else
            match okNode with
            | .dict okvs2 =>
                match Py.pyOr (Py.getKeyD okvs2 (.s "content") (.dict [])) (.dict []) with
                | .dict ckvs =>
                    match Py.pyOr (Py.getKeyD ckvs (.s "application/json") .none) (.dict []) with
                    | .dict akvs =>
                        let schema := Py.pyOr (Py.getKeyD akvs (.s "schema") .none) (.dict [])
                        if Py.truthy schema then simplifySchema fuel spec schema else .ok .none
                    | _ => .exn
                | _ => .exn
            | _ => .exn
      | _ => .exn
  | _ => .exn

/-! ### Registry builder (src/schemas.py, build_registry_shallow) -/

/-- Embedding of `list_paths`: the keys of the spec's `paths` mapping, in
document order. -/
def listPaths (spec : Py) : PRes (List PyKey) :=
  match spec with
  | .dict skvs =>
      match Py.pyOr (Py.getKeyD skvs (.s "paths") (.dict [])) (.dict []) with
      | .dict pkvs => .ok (pkvs.map Prod.fst)
      | _ => .exn
  | _ => .exn

/-- Embedding of `get_operation` for the GET method: the path item's `get`
operation, defaulting to the empty dictionary at every step. -/
def getOperation (spec : Py) (path : PyKey) : PRes Py :=
  match spec with
  | .dict skvs =>
      match Py.pyOr (Py.getKeyD skvs (.s "paths") (.dict [])) (.dict []) with
      | .dict pkvs =>
          match Py.pyOr (Py.getKeyD pkvs path .none) (.dict []) with
          | .dict ikvs => .ok (Py.pyOr (Py.getKeyD ikvs (.s "get") (.dict [])) (.dict []))
          | _ => .exn
      | _ => .exn
  | _ => .exn

/-- Numeric view of a value for sorting, as Python compares bools with
ints. -/
def pyNum : Py → Option Int
  | .int n => some n
  | .bool b => some (if b then 1 else 0)
  | _ => Option.none

/-- Stable insertion into a numerically sorted list. -/
def insNum (x : Py) (nx : Int) : List (Py × Int) → List (Py × Int)
  | [] => [(x, nx)]
  | (y, ny) :: ys => if ny ≤ nx then (y, ny) :: insNum x nx ys else (x, nx) :: (y, ny) :: ys

/-- Python `sorted(...)` on a list of arbitrary values: a singleton or
empty list never compares; all-string and all-numeric lists sort; any other
mix raises TypeError. -/
def pySortPyList (xs : List Py) : PRes (List Py) :=
  if xs.length ≤ 1 then .ok xs
  else if xs.all (fun x => match x with | .str _ => true | _ => false) then
    .ok ((sortStr (xs.map (fun x => match x with | .str s => s | _ => ""))).map .str)
  else if xs.all (fun x => (pyNum x).isSome) then
    .ok (((xs.map (fun x => (x, (pyNum x).getD 0))).foldl
      (fun acc p => insNum p.1 p.2 acc) []).map Prod.fst)
  else .exn

/-- The query-parameter name list a registry entry stores:
`sorted([p.get("name") for p in parameters if p.get("in") == "query" and p.get("name")])`. -/
def queryNamesOf (parameters : List Py) : PRes (List Py) :=
  pySortPyList (parameters.filterMap (fun p =>
    match p with
    | .dict pkvs =>
        let nm := Py.getKeyD pkvs (.s "name") .none
        if Py.eqStr (Py.getKeyD pkvs (.s "in") .none) "query" && Py.truthy nm then some nm
        else Option.none
    | _ => Option.none))

/-- A registry path key must be a string when placeholder names are
extracted from it (re.findall raises on an int key). -/
def pathKeyStr : PyKey → PRes String
  | .s p => .ok p
  | .i _ => .exn

/-- One iteration of the `build_registry_shallow` loop: skip paths whose
GET operation is falsy, otherwise assemble the registry entry. -/
def buildEntry (fuel : Nat) (spec : Py) (path : PyKey) : PRes (Option (PyKey × Py)) := do
  let op ← getOperation spec path
  if !Py.truthy op then pure Option.none
  else
    match op with
    | .dict okvs => do
        let summary := Py.pyOr (Py.getKeyD okvs (.s "summary") .none)
          (Py.pyOr (Py.getKeyD okvs (.s "description") .none) (.str ""))
        let tags := Py.pyOr (Py.getKeyD okvs (.s "tags") .none) (.list [])
        let parameters ← getParametersShallow fuel spec op
        let responseSchema ← extractResponseSchemaShallow fuel spec op
        let pathStr ← pathKeyStr path
        let qpn ← queryNamesOf parameters
        pure (some (path, Py.dict
          [(.s "summary", summary),
           (.s "tags", tags),
           (.s "parameters", .list parameters),
           (.s "pathParamNames", .list ((sortedSet (pyFindPlaceholders pathStr)).map .str)),
           (.s "queryParamNames", .list qpn),
           (.s "responseSchema", responseSchema)]))
    | _ => PRes.exn

/-- The iteration of `build_registry_shallow` over the path list. -/
def buildRegistryGo (fuel : Nat) (spec : Py) : List PyKey → PRes (List (PyKey × Py))
  | [] => .ok []
  | path :: rest => do
      let e ← buildEntry fuel spec path
      let r ← buildRegistryGo fuel spec rest
      match e with
      | some kv => pure (Py.dictInsert r kv.1 kv.2)
      | Option.none => pure r

/-- Embedding of `build_registry_shallow`: one registry entry per spec path
holding a GET operation, with shallow parameters, placeholder names and the
shallow response schema. -/
def buildRegistryShallow (fuel : Nat) (spec : Py) : PRes (List (PyKey × Py)) := do
  let paths ← listPaths spec
  buildRegistryGo fuel spec paths

/-! ### Discovery (src/uwmcp/tools/generic.py, search_endpoints) -/

/-- The tag-exclusion test of `search_endpoints`:
`any(t in set(alerts websocket) for t in tags)` — an unhashable tag raises,
matching short-circuits. -/
def anyExcludedTag : List Py → PRes Bool
  | [] => .ok false
  | t :: rest =>
      match t with
      | .list _ => .exn
      | .dict _ => .exn
      | _ =>
          if Py.eqStr t "alerts" || Py.eqStr t "websocket" then .ok true
          else anyExcludedTag rest

/-- The tag value as an iterable for the exclusion test: a list iterates
its elements, a string iterates single-character pieces (which never equal
an excluded tag), anything else truthy raises. -/
def tagsExcluded : Py → PRes Bool
  | .list ts => anyExcludedTag ts
  | .str _ => .ok false
  | _ => .exn

/-- The tag elements joined into the query haystack: a list contributes
its elements, a string iterates into its single-character pieces (all
strings, so the join succeeds), anything else raises at iteration. -/
def tagsAsList : Py → PRes (List Py)
  | .list ts => .ok ts
  | .str s => .ok (s.data.map (fun c => Py.str ⟨[c]⟩))
  | _ => .exn

/-- The per-parameter descriptor `search_endpoints` publishes: name,
location, required forced truthy for path-location parameters, and the
shallow schema. -/
def discoveryParam (p : Py) : PRes Py :=
  match p with
  | .dict pkvs =>
      .ok (.dict
        [(.s "name", Py.getKeyD pkvs (.s "name") .none),
         (.s "in", Py.getKeyD pkvs (.s "in") .none),
         (.s "required", Py.pyOr (Py.getKeyD pkvs (.s "required") (.bool false))
            (.bool (Py.eqStr (Py.getKeyD pkvs (.s "in") .none) "path"))),
         (.s "schema", Py.getKeyD pkvs (.s "schema") .none)])
  | _ => .exn

def discoveryParams : List Py → PRes (List Py)
  | [] => .ok []
  | p :: ps => do
      let d ← discoveryParam p
      let rest ← discoveryParams ps
      pure (d :: rest)

/-- The string join of the query haystack: every joined piece must be a
string or the join raises. -/
def joinStrs (sep : String) : List Py → PRes String
  | [] => .ok ""
  | [.str s] => .ok s
  | .str s :: rest => (joinStrs sep rest).map (fun r => s ++ sep ++ r)
  | _ => .exn

/-- One iteration of the `search_endpoints` loop: skip paths without a GET
operation or with an excluded tag, build the discovery entry, and apply
the optional substring filter over path, summary and tags. -/
def searchOne (fuel : Nat) (spec : Py) (query : Option String) (path : PyKey) :
    PRes (Option Py) := do
  let op ← getOperation spec path
  if !Py.truthy op then pure Option.none
  else
    match op with
    | .dict okvs => do
        let summary := Py.pyOr (Py.getKeyD okvs (.s "summary") .none)
          (Py.pyOr (Py.getKeyD okvs (.s "description") .none) (.str ""))
        let tags := Py.pyOr (Py.getKeyD okvs (.s "tags") .none) (.list [])
        let excluded ← tagsExcluded tags
        if excluded then pure Option.none
        else do
          let params ← getParametersShallow fuel spec op
          let responseSchema ← extractResponseSchemaShallow fuel spec op
          let dparams ← discoveryParams params
          let pathPy : Py := match path with
            | .s p => .str p
            | .i n => .int n
          let entry := Py.dict
            [(.s "path", pathPy),
             (.s "summary", summary),
             (.s "tags", tags),
             (.s "parameters", .list dparams),
             (.s "responseSchema", responseSchema)]
          match query with
          | some q =>
              if q = "" then pure (some entry)
              else do
                let tagsList ← tagsAsList tags
                let tagsJoined ← joinStrs " " tagsList
                let hay ← joinStrs " " [pathPy, Py.pyOr summary (.str ""), .str tagsJoined]
                if strIn (pyLower q) (pyLower hay) then pure (some entry)
                else pure Option.none
          | Option.none => pure (some entry)
    | _ => PRes.exn

def searchGo (fuel : Nat) (spec : Py) (query : Option String) : List PyKey → PRes (List Py)
  | [] => .ok []
  | path :: rest => do
      let e ← searchOne fuel spec query path
      let r ← searchGo fuel spec query rest
      match e with
      | some entry => pure (entry :: r)
      | Option.none => pure r

/-- Embedding of `search_endpoints`: the discovery operation listing GET
endpoints with parameters and response schemas, optionally filtered by a
substring query. -/
def searchEndpoints (fuel : Nat) (spec : Py) (query : Option String) : PRes Py := do
  let paths ← listPaths spec
  let results ← searchGo fuel spec query paths
  pure (.dict [(.s "paths", .list results), (.s "count", .int results.length)])

/-! ### Observation helpers used by the theorem statements -/

/-- The entry list of a dictionary value (empty for non-dictionaries). -/
def pyDictKvs : Py → List (PyKey × Py)
  | .dict kvs => kvs
  | _ => []

/-- The ttg contentType field of a normalized JSON envelope. -/
def ttgContentType (envelope : Py) : Option Py :=
  match Py.getKey (pyDictKvs envelope) (.s "content") with
  | some (.list [_, ttgBlock]) =>
      match Py.getKey (pyDictKvs ttgBlock) (.s "ttg") with
      | some ttg => Py.getKey (pyDictKvs ttg) (.s "contentType")
      | Option.none => Option.none
  | _ => Option.none

/-- The keys a shallow schema summary may carry. -/
def allow5 : List String := ["type", "format", "enum", "title", "items"]

mutual

/-- The shape invariant of `_simplify_schema` output: a dictionary carries
only allow-listed keys, and the value under `items` satisfies the same
invariant; values under the other keys are copied verbatim from the source
schema and are unconstrained, as are non-dictionary results. -/
def summaryShape : Py → Bool
  | .dict kvs => summaryShapeEntries kvs
  | _ => true

def summaryShapeEntries : List (PyKey × Py) → Bool
  | [] => true
  | (k, v) :: rest =>
      (match k with
       | .s ks => allow5.contains ks && (!(ks == "items") || summaryShape v)
       | .i _ => false) && summaryShapeEntries rest

end

mutual

/-- Whether a key occurs as a dictionary key anywhere inside a value. -/
def containsKeyDeep (key : String) : Py → Bool
  | .dict kvs => containsKeyDeepEntries key kvs
  | .list xs => containsKeyDeepList key xs
  | _ => false

def containsKeyDeepEntries (key : String) : List (PyKey × Py) → Bool
  | [] => false
  | (k, v) :: rest =>
      (k == .s key) || containsKeyDeep key v || containsKeyDeepEntries key rest

def containsKeyDeepList (key : String) : List Py → Bool
  | [] => false
  | x :: xs => containsKeyDeep key x || containsKeyDeepList key xs

end

/-- Whether a path segment is a whole placeholder in the matcher's sense. -/
def segIsPlaceholder (seg : String) : Bool :=
  strStartsWith seg "\x7b" && strEndsWith seg "\x7d"

/-- The placeholder name of a brace-wrapped segment. -/
def segName (seg : String) : String := strDropRightN (strDropN seg 1) 1

/-- The placeholder names of a template, in segment order. -/
def orderedPhNames (tmpl : String) : List String :=
  ((splitSegments tmpl).filter segIsPlaceholder).map segName

/-! ### Concrete fixtures used by witnesses and counterexamples -/

/-- A minimal spec document: one path with a GET operation, one path
parameter whose `required` field the document leaves unset, and one query
parameter. -/
def specW : Py := .dict [(.s "paths", .dict
  [(.s "/s/\x7bt\x7d", .dict [(.s "get", .dict
    [(.s "summary", .str "S"),
     (.s "parameters", .list
       [.dict [(.s "name", .str "t"), (.s "in", .str "path")],
        .dict [(.s "name", .str "q"), (.s "in", .str "query"),
               (.s "schema", .dict [(.s "type", .str "string")])]]),
     (.s "responses", .dict [(.s "200", .dict [(.s "content", .dict
       [(.s "application/json", .dict
         [(.s "schema", .dict [(.s "type", .str "object")])])])])])])])])]

/-- A spec document with a two-hop reference chain: A refers to B. -/
def specChain : Py := .dict
  [(.s "A", .dict [(.s "$ref", .str "#/B")]),
   (.s "B", .dict [(.s "type", .str "string")])]

/-- A dispatch registry with a single templated endpoint. -/
def regW : List (String × RegEntry) :=
  [("/api/shorts/\x7bticker\x7d/data", ⟨["ticker"], ["limit"]⟩)]

/-- The registry entry `build_registry_shallow` produces for the witness
spec specW. -/
def regEntryWkvs : List (PyKey × Py) :=
  [(.s "summary", .str "S"),
   (.s "tags", .list []),
   (.s "parameters", .list
     [.dict [(.s "name", .str "t"), (.s "in", .str "path"),
             (.s "required", .bool false)],
      .dict [(.s "name", .str "q"), (.s "in", .str "query"),
             (.s "required", .bool false),
             (.s "schema", .dict [(.s "type", .str "string")])]]),
   (.s "pathParamNames", .list [.str "t"]),
   (.s "queryParamNames", .list [.str "q"]),
   (.s "responseSchema", .dict [(.s "type", .str "object")])]

/-- The discovery entry the witness spec produces. -/
def entryWkvs : List (PyKey × Py) :=
  [(.s "path", .str "/s/\x7bt\x7d"),
   (.s "summary", .str "S"),
   (.s "tags", .list []),
   (.s "parameters", .list
     [.dict [(.s "name", .str "t"), (.s "in", .str "path"),
             (.s "required", .bool true), (.s "schema", .none)],
      .dict [(.s "name", .str "q"), (.s "in", .str "query"),
             (.s "required", .bool false),
             (.s "schema", .dict [(.s "type", .str "string")])]]),
   (.s "responseSchema", .dict [(.s "type", .str "object")])]

/-! ## Shared lemmas -/

theorem PRes.bind_ok_iff {α β : Type} (x : PRes α) (f : α → PRes β) (b : β) :
    x.bind f = .ok b ↔ ∃ a, x = .ok a ∧ f a = .ok b := by
  cases x <;> simp [PRes.bind]

theorem PRes.map_ok_iff {α β : Type} (f : α → β) (x : PRes α) (b : β) :
    x.map f = .ok b ↔ ∃ a, x = .ok a ∧ b = f a := by
  cases x with
  | ok a => simp [PRes.map]; exact ⟨fun h => h.symm, fun h => h.symm⟩
  | exn => simp [PRes.map]
  | div => simp [PRes.map]

theorem mem_insStr (x y : String) (l : List String) :
    y ∈ insStr x l ↔ y = x ∨ y ∈ l := by
  induction l with
  | nil => simp [insStr]
  | cons z zs ih =>
      simp only [insStr]
      by_cases h : strLtS z x = true
      · simp only [h, if_true, List.mem_cons, ih]; tauto
      · simp only [h, if_false, Bool.false_eq_true, List.mem_cons]

theorem mem_sortStr (y : String) (l : List String) : y ∈ sortStr l ↔ y ∈ l := by
  induction l with
  | nil => simp [sortStr]
  | cons z zs ih => simp [sortStr, mem_insStr, ih]

theorem insStr_ne_nil (x : String) (l : List String) : insStr x l ≠ [] := by
  cases l with
  | nil => simp [insStr]
  | cons z zs =>
      simp only [insStr]
      by_cases h : strLtS z x = true <;> simp [h]

theorem sortStr_eq_nil_iff (l : List String) : sortStr l = [] ↔ l = [] := by
  cases l with
  | nil => simp [sortStr]
  | cons z zs => simp [sortStr, insStr_ne_nil]

/-! ## C6: content-type classification -/

/-- C6: for every resolved real path (and hence for the normalized JSON
envelope built from it), the content classification is decided in priority
order: darkpool anywhere in the lowercased path, else options without
chain, else market/movers, else generic json. -/
theorem c6_classification (p : String) (data : Py) :
    (strIn "darkpool" (pyLower p) = true → classifyContent p = "darkpool_trades") ∧
    (strIn "darkpool" (pyLower p) = false → strIn "options" (pyLower p) = true →
      strIn "chain" (pyLower p) = false → classifyContent p = "options_flow") ∧
    (strIn "darkpool" (pyLower p) = false →
      (strIn "options" (pyLower p) = false ∨ strIn "chain" (pyLower p) = true) →
      strIn "market/movers" (pyLower p) = true → classifyContent p = "market_movers") ∧
    (strIn "darkpool" (pyLower p) = false →
      (strIn "options" (pyLower p) = false ∨ strIn "chain" (pyLower p) = true) →
      strIn "market/movers" (pyLower p) = false → classifyContent p = "json") ∧
    ttgContentType (jsonEnvelope p data) = some (.str (classifyContent p)) := by
  refine ⟨?_, ?_, ?_, ?_, rfl⟩
  · intro h1; simp [classifyContent, h1]
  · intro h1 h2 h3; simp [classifyContent, h1, h2, h3]
  · intro h1 h2 h3
    rcases h2 with h2 | h2 <;> simp [classifyContent, h1, h2, h3]
  · intro h1 h2 h3
    rcases h2 with h2 | h2 <;> simp [classifyContent, h1, h2, h3]

theorem c6_classification_witness :
    classifyContent "/api/darkpool/recent" = "darkpool_trades" ∧
    classifyContent "/api/options/flow" = "options_flow" ∧
    classifyContent "/api/market/movers" = "market_movers" ∧
    classifyContent "/api/stock/chains" = "json" :=
  ⟨(c6_classification "/api/darkpool/recent" .none).1 (by decide),
   (c6_classification "/api/options/flow" .none).2.1 (by decide) (by decide) (by decide),
   (c6_classification "/api/market/movers" .none).2.2.1 (by decide) (Or.inl (by decide))
     (by decide),
   (c6_classification "/api/stock/chains" .none).2.2.2.1 (by decide) (Or.inr (by decide))
     (by decide)⟩

/-! ## C3: resolve_ref raises on traversal through a non-mapping node -/

/-- C3 counterexample: resolving `#/a/0` in a document whose `a` is a list
raises AttributeError (`.get` on a list), so resolve_ref is not
exception-free for all inputs. -/
theorem c3_counterexample :
    resolveRef (Py.dict [(.s "a", .list [.int 1, .int 2])]) (.str "#/a/0") = .exn := rfl

/-! ## C4 counterexample: tie-break is lexicographic, not registry order -/

/-- C4 counterexample: for the concrete path /a/foo the registry-order
candidates /a/(x) and /a/(y) tie on both literal matches (1) and inferred
parameter count (1), yet the matcher returns the second one /a/(y) — the
lexicographically greatest template — not the first in registry order. -/
theorem c4_counterexample :
    inferCandidates "/a/foo" ["/a/\x7bx\x7d", "/a/\x7by\x7d"] =
      [(1, 1, "/a/\x7bx\x7d", [("x", "foo")]), (1, 1, "/a/\x7by\x7d", [("y", "foo")])] ∧
    inferTemplateAndParams "/a/foo" ["/a/\x7bx\x7d", "/a/\x7by\x7d"] =
      some ("/a/\x7by\x7d", [("y", "foo")]) ∧
    "/a/\x7by\x7d" ≠ "/a/\x7bx\x7d" := by
  refine ⟨by decide, by decide, by decide⟩

/-! ## C5 counterexample: substitute-then-infer is not idempotent -/

/-- C5 counterexample: substituting x := lit into template /a/(x) yields
the concrete path /a/lit, which the matcher resolves to the literal
template /a/lit with an empty parameter map instead of round-tripping back
to /a/(x) with (x := lit). -/
theorem c5_counterexample :
    formatPath "/a/\x7bx\x7d" [("x", Py.str "lit")] = "/a/lit" ∧
    inferTemplateAndParams "/a/lit" ["/a/\x7bx\x7d", "/a/lit"] = some ("/a/lit", []) ∧
    (some ("/a/lit", ([] : List (String × String))) ≠
      some ("/a/\x7bx\x7d", [("x", "lit")])) := by
  refine ⟨by decide, by decide, by decide⟩

/-! ## C2 counterexample: verbatim copies and chained references -/

/-- C2 counterexample: a summary can contain a nested `properties` key
(inside a verbatim-copied enum value), and a two-hop reference chain is
resolved fully — the spec-worded one-hop simplifier stops at the second
reference and returns an empty summary where the source returns the fully
resolved one. -/
theorem c2_counterexample :
    simplifySchema 10 (Py.dict [])
        (Py.dict [(.s "enum", .list [.dict [(.s "properties", .int 1)]])]) =
      .ok (Py.dict [(.s "enum", .list [.dict [(.s "properties", .int 1)]])]) ∧
    containsKeyDeep "properties"
        (Py.dict [(.s "enum", .list [.dict [(.s "properties", .int 1)]])]) = true ∧
    simplifySchema 10 specChain (Py.dict [(.s "$ref", .str "#/A")]) =
      .ok (Py.dict [(.s "type", .str "string")]) ∧
    specOneHopSimplify specChain (Py.dict [(.s "$ref", .str "#/A")]) =
      .ok (Py.dict []) := by
  refine ⟨rfl, rfl, rfl, rfl⟩


theorem getKeyD_none {kvs : List (PyKey × Py)} {k : PyKey}
    (hk : Py.getKey kvs k = Option.none) : Py.getKeyD kvs k .none = .none := by
  simp [Py.getKeyD, hk]

theorem getKeyD_some {kvs : List (PyKey × Py)} {k : PyKey} {w : Py}
    (hk : Py.getKey kvs k = some w) : Py.getKeyD kvs k .none = w := by
  simp [Py.getKeyD, hk]

theorem refWalk_cons_ne_none {kvs : List (PyKey × Py)} {p : String} {ps : List String}
    {w : Py} (hkd : Py.getKeyD kvs (.s p) .none = w) (hw : w ≠ .none) :
    refWalk (.dict kvs) (p :: ps) = refWalk w ps := by
  cases w with
  | none => exact absurd rfl hw
  | bool b => simp [refWalk, hkd]
  | int n => simp [refWalk, hkd]
  | str s => simp [refWalk, hkd]
  | list xs => simp [refWalk, hkd]
  | dict kvs2 => simp [refWalk, hkd]

theorem refWalk_getPath (parts : List String) :
    ∀ node v : Py,
      (refWalk node parts = .ok v → v ≠ .none → getPath node parts = some v) ∧
      (getPath node parts = some v → v ≠ .none → refWalk node parts = .ok v) ∧
      (refWalk node parts = .exn → getPath node parts = Option.none) := by
  induction parts with
  | nil =>
      intro node v
      refine ⟨?_, ?_, ?_⟩
      · intro h _
        simp only [refWalk, PRes.ok.injEq] at h
        simp [getPath, h]
      · intro h _
        simp only [getPath, Option.some.injEq] at h
        simp [refWalk, h]
      · intro h
        simp [refWalk] at h
  | cons p ps ih =>
      intro node v
      cases node with
      | dict kvs =>
          cases hk : Py.getKey kvs (.s p) with
          | none =>
              have hkd := getKeyD_none hk
              refine ⟨?_, ?_, ?_⟩
              · intro h hv
                simp only [refWalk, hkd, PRes.ok.injEq] at h
                exact absurd h.symm hv
              · intro h _
                simp [getPath, hk] at h
              · intro h
                simp [refWalk, hkd] at h
          | some w =>
              have hkd := getKeyD_some hk
              have hgp : getPath (.dict kvs) (p :: ps) = getPath w ps := by
                simp [getPath, hk]
              by_cases hw : w = .none
              · subst hw
                refine ⟨?_, ?_, ?_⟩
                · intro h hv
                  simp only [refWalk, hkd, PRes.ok.injEq] at h
                  exact absurd h.symm hv
                · intro h hv
                  rw [hgp] at h
                  cases ps with
                  | nil =>
                      simp only [getPath, Option.some.injEq] at h
                      exact absurd h.symm hv
                  | cons q qs => simp [getPath] at h
                · intro h
                  simp [refWalk, hkd] at h
              · have hrw := @refWalk_cons_ne_none kvs p ps w hkd hw
                refine ⟨?_, ?_, ?_⟩
                · intro h hv
                  rw [hrw] at h
                  rw [hgp]
                  exact (ih w v).1 h hv
                · intro h hv
                  rw [hgp] at h
                  rw [hrw]
                  exact (ih w v).2.1 h hv
                · intro h
                  rw [hrw] at h
                  rw [hgp]
                  exact (ih w v).2.2 h
      | none =>
          refine ⟨?_, ?_, ?_⟩
          · intro h _; simp [refWalk] at h
          · intro h _; simp [getPath] at h
          · intro h; simp [getPath]
      | bool b =>
          refine ⟨?_, ?_, ?_⟩
          · intro h _; simp [refWalk] at h
          · intro h _; simp [getPath] at h
          · intro h; simp [getPath]
      | int n =>
          refine ⟨?_, ?_, ?_⟩
          · intro h _; simp [refWalk] at h
          · intro h _; simp [getPath] at h
          · intro h; simp [getPath]
      | str s =>
          refine ⟨?_, ?_, ?_⟩
          · intro h _; simp [refWalk] at h
          · intro h _; simp [getPath] at h
          · intro h; simp [getPath]
      | list xs =>
          refine ⟨?_, ?_, ?_⟩
          · intro h _; simp [refWalk] at h
          · intro h _; simp [getPath] at h
          · intro h; simp [getPath]

/-- C3 amended: resolve_ref returns None on a malformed ref; whenever it
returns a non-None node that node is exactly the referenced node of the
pointer (the spec-worded resolver getPath), and conversely every pointer
whose referenced node exists (all traversed nodes mappings) is returned
without an exception; an exception occurs only where the referenced node
is absent — namely when the walk calls `.get` on a non-mapping node. -/
theorem c3_resolve_ref_amended (spec : Py) (s : String) :
    (strStartsWith s "#/" = false → resolveRef spec (.str s) = .ok .none) ∧
    (∀ v, resolveRef spec (.str s) = .ok v → v ≠ .none →
       getPath spec (pySplitSlash (strDropN s 2)) = some v) ∧
    (∀ v, getPath spec (pySplitSlash (strDropN s 2)) = some v → v ≠ .none →
       strStartsWith s "#/" = true → resolveRef spec (.str s) = .ok v) ∧
    (resolveRef spec (.str s) = .exn →
       getPath spec (pySplitSlash (strDropN s 2)) = Option.none) := by
  by_cases hs : strStartsWith s "#/" = true
  · refine ⟨fun h => absurd hs (by simp [h]), ?_, ?_, ?_⟩
    · intro v h hv
      simp only [resolveRef, hs, if_true] at h
      exact (refWalk_getPath (pySplitSlash (strDropN s 2)) spec v).1 h hv
    · intro v h hv _
      simp only [resolveRef, hs, if_true]
      exact (refWalk_getPath (pySplitSlash (strDropN s 2)) spec v).2.1 h hv
    · intro h
      simp only [resolveRef, hs, if_true] at h
      exact (refWalk_getPath (pySplitSlash (strDropN s 2)) spec .none).2.2 h
  · have hs' : strStartsWith s "#/" = false := by
      cases h : strStartsWith s "#/" with
      | true => exact absurd h hs
      | false => rfl
    refine ⟨fun _ => by simp [resolveRef, hs'], ?_, ?_, ?_⟩
    · intro v h hv
      simp only [resolveRef, hs', Bool.false_eq_true, if_false, PRes.ok.injEq] at h
      exact absurd h.symm hv
    · intro v _ _ h
      exact absurd h hs
    · intro h
      simp [resolveRef, hs'] at h

theorem c3_resolve_ref_amended_witness :
    resolveRef (Py.dict [(.s "a", .dict [(.s "b", .int 3)])]) (.str "#/a/b") =
      .ok (.int 3) :=
  (c3_resolve_ref_amended (Py.dict [(.s "a", .dict [(.s "b", .int 3)])]) "#/a/b").2.2.1
    (.int 3) rfl (by intro h; exact Py.noConfusion h) (by decide)

/-! ## C8 counterexample: registry descriptors do not force required -/

/-- C8 counterexample: building the registry over a spec whose path
parameter t leaves `required` unset stores the descriptor with
`required = False` — the path-location override of the discovery output is
absent from registry entries (and hence from the parameter-introspection
output, which returns these stored descriptors verbatim). -/
theorem c8_counterexample :
    buildRegistryShallow 50 specW = .ok
      [(.s "/s/\x7bt\x7d", Py.dict
        [(.s "summary", .str "S"),
         (.s "tags", .list []),
         (.s "parameters", .list
           [.dict [(.s "name", .str "t"), (.s "in", .str "path"),
                   (.s "required", .bool false)],
            .dict [(.s "name", .str "q"), (.s "in", .str "query"),
                   (.s "required", .bool false),
                   (.s "schema", .dict [(.s "type", .str "string")])]]),
         (.s "pathParamNames", .list [.str "t"]),
         (.s "queryParamNames", .list [.str "q"]),
         (.s "responseSchema", .dict [(.s "type", .str "object")])])] := rfl


theorem summaryShapeEntries_append (a b : List (PyKey × Py)) :
    summaryShapeEntries (a ++ b) = (summaryShapeEntries a && summaryShapeEntries b) := by
  induction a with
  | nil => simp [summaryShapeEntries]
  | cons kv rest ih =>
      obtain ⟨k, v⟩ := kv
      simp [summaryShapeEntries, ih, Bool.and_assoc]

theorem allowFilter_shape (kvs : List (PyKey × Py)) :
    summaryShapeEntries (allowFilter kvs) = true := by
  simp only [allowFilter, allow4, List.filterMap]
  cases h1 : Py.getKey kvs (.s "type") <;>
    cases h2 : Py.getKey kvs (.s "format") <;>
      cases h3 : Py.getKey kvs (.s "enum") <;>
        cases h4 : Py.getKey kvs (.s "title") <;>
          simp [summaryShapeEntries, allow5]

theorem summaryShape_with_items (kvs : List (PyKey × Py)) (iv : Py)
    (h2 : summaryShape iv = true) :
    summaryShape (.dict (allowFilter kvs ++ [(.s "items", iv)])) = true := by
  simp [summaryShape, summaryShapeEntries_append, allowFilter_shape,
    summaryShapeEntries, allow5, h2]

/-- C2 amended: every value _simplify_schema returns satisfies the shape
invariant summaryShape — the summary dictionary (and, transitively, every
dictionary reached through its `items` key) carries only the keys type,
format, enum, title, items; values copied verbatim from the source (enum
lists, titles, non-dictionary items) are passed through unconstrained, and
reference chains are followed recursively rather than for a single hop. -/
theorem c2_simplify_amended (fuel : Nat) :
    ∀ (spec s v : Py), simplifySchema fuel spec s = .ok v → summaryShape v = true := by
  induction fuel with
  | zero =>
      intro spec s v h
      simp [simplifySchema] at h
  | succ n ih =>
      intro spec s v h
      cases s with
      | dict kvs =>
          simp only [simplifySchema] at h
          by_cases href : Py.hasKey kvs (.s "$ref") = true
          · simp only [href, if_true] at h
            cases hr : resolveRef spec (Py.getKeyD kvs (.s "$ref") .none) with
            | ok t =>
                rw [hr] at h
                exact ih spec _ v h
            | exn => rw [hr] at h; exact absurd h (by simp)
            | div => rw [hr] at h; exact absurd h (by simp)
          · have href2 : Py.hasKey kvs (.s "$ref") = false := by
              cases hx : Py.hasKey kvs (.s "$ref") with
              | true => exact absurd hx href
              | false => rfl
            simp only [href2, Bool.false_eq_true, if_false] at h
            cases hit : Py.getKey kvs (.s "items") with
            | none =>
                rw [hit] at h
                simp only [PRes.ok.injEq] at h
                subst h
                simp [summaryShape, allowFilter_shape]
            | some items =>
                rw [hit] at h
                cases items with
                | dict ikvs =>
                    by_cases hiref : Py.hasKey ikvs (.s "$ref") = true
                    · simp only [hiref, if_true] at h
                      cases hri : resolveRef spec (Py.getKeyD ikvs (.s "$ref") .none) with
                      | ok ti =>
                          rw [hri] at h
                          rw [PRes.map_ok_iff] at h
                          obtain ⟨iv, hiv, hveq⟩ := h
                          subst hveq
                          exact summaryShape_with_items kvs iv (ih spec _ iv hiv)
                      | exn => rw [hri] at h; exact absurd h (by simp)
                      | div => rw [hri] at h; exact absurd h (by simp)
                    · have hiref2 : Py.hasKey ikvs (.s "$ref") = false := by
                        cases hx : Py.hasKey ikvs (.s "$ref") with
                        | true => exact absurd hx hiref
                        | false => rfl
                      simp only [hiref2, Bool.false_eq_true, if_false, PRes.ok.injEq] at h
                      subst h
                      exact summaryShape_with_items kvs _
                        (by simp [summaryShape, allowFilter_shape])
                | none =>
                    simp only [PRes.ok.injEq] at h
                    subst h
                    exact summaryShape_with_items kvs _ (by simp [summaryShape])
                | bool b =>
                    simp only [PRes.ok.injEq] at h
                    subst h
                    exact summaryShape_with_items kvs _ (by simp [summaryShape])
                | int m =>
                    simp only [PRes.ok.injEq] at h
                    subst h
                    exact summaryShape_with_items kvs _ (by simp [summaryShape])
                | str t =>
                    simp only [PRes.ok.injEq] at h
                    subst h
                    exact summaryShape_with_items kvs _ (by simp [summaryShape])
                | list xs =>
                    simp only [PRes.ok.injEq] at h
                    subst h
                    exact summaryShape_with_items kvs _ (by simp [summaryShape])
          | none =>
              simp only [simplifySchema, PRes.ok.injEq] at h
              subst h; rfl
          | bool b =>
              simp only [simplifySchema, PRes.ok.injEq] at h
              subst h; rfl
          | int m =>
              simp only [simplifySchema, PRes.ok.injEq] at h
              subst h; rfl
          | str t =>
              simp only [simplifySchema, PRes.ok.injEq] at h
              subst h; rfl
          | list xs =>
              simp only [simplifySchema, PRes.ok.injEq] at h
              subst h; rfl

theorem c2_simplify_amended_witness :
    summaryShape (Py.dict
      [(.s "type", .str "array"),
       (.s "items", .dict [(.s "type", .str "string")])]) = true :=
  c2_simplify_amended 5 (Py.dict [(.s "S", .dict [(.s "type", .str "string")])])
    (Py.dict [(.s "type", .str "array"),
              (.s "items", .dict [(.s "$ref", .str "#/S")])])
    (Py.dict [(.s "type", .str "array"),
              (.s "items", .dict [(.s "type", .str "string")])])
    rfl


/-! ## C1: validation failures return error payloads before any upstream call -/

/-- C1: for every dispatch call whose effective-template resolution
succeeds, if some required path placeholder has no bound value the call
returns the missing-path-parameters payload (naming the sorted missing set
and the effective path); otherwise, if some supplied query key is outside
the allowed query set, it returns the unknown-query-parameters payload
(listing exactly the sorted disallowed keys and the sorted allowed set);
in either case no upstream GET request is issued. -/
theorem c1_validation_errors (reg : List (String × RegEntry)) (path : String)
    (params : List (String × Py)) (ep : String) (eps : List (String × Py))
    (hres : resolveEffective reg path params = .ok (ep, eps))
    (h : (∃ k, k ∈ getPathParamNames reg ep ∧
            ((splitParamsForPath ep eps).1.map Prod.fst).contains k = false) ∨
         (∃ q, q ∈ (splitParamsForPath ep eps).2.map Prod.fst ∧
            (getAllowedQueryParamNames reg ep).contains q = false)) :
    callGetInternal reg path params =
      .errorResult
        (if sortStr ((getPathParamNames reg ep).filter
              (fun k => !((splitParamsForPath ep eps).1.map Prod.fst).contains k)) = []
         then unknownQueryPayload
                (sortStr (((splitParamsForPath ep eps).2.map Prod.fst).filter
                  (fun k => !(getAllowedQueryParamNames reg ep).contains k)))
                (sortStr (getAllowedQueryParamNames reg ep)) ep
         else missingPayload
                (sortStr ((getPathParamNames reg ep).filter
                  (fun k => !((splitParamsForPath ep eps).1.map Prod.fst).contains k))) ep) ∧
    ∀ rp qp, callGetInternal reg path params ≠ .request rp qp := by
  have hcall : callGetInternal reg path params =
      (let missing := sortStr ((getPathParamNames reg ep).filter
          (fun k => !((splitParamsForPath ep eps).1.map Prod.fst).contains k));
       if missing ≠ [] then .errorResult (missingPayload missing ep)
       else
         let unknown := sortStr (((splitParamsForPath ep eps).2.map Prod.fst).filter
           (fun k => !(getAllowedQueryParamNames reg ep).contains k));
         if unknown ≠ [] then
           .errorResult (unknownQueryPayload unknown
             (sortStr (getAllowedQueryParamNames reg ep)) ep)
         else .request (formatPath ep (splitParamsForPath ep eps).1)
           (splitParamsForPath ep eps).2) := by
    simp only [callGetInternal, hres]
  by_cases hm : sortStr ((getPathParamNames reg ep).filter
      (fun k => !((splitParamsForPath ep eps).1.map Prod.fst).contains k)) = []
  · have hq : ∃ q, q ∈ (splitParamsForPath ep eps).2.map Prod.fst ∧
        (getAllowedQueryParamNames reg ep).contains q = false := by
      rcases h with ⟨k, hk, hkc⟩ | hq
      · exfalso
        have : k ∈ (getPathParamNames reg ep).filter
            (fun k => !((splitParamsForPath ep eps).1.map Prod.fst).contains k) := by
          rw [List.mem_filter]
          exact ⟨hk, by simpa using hkc⟩
        have hne := List.ne_nil_of_mem this
        rw [(sortStr_eq_nil_iff _).mp hm] at this
        exact absurd this (List.not_mem_nil k)
      · exact hq
    obtain ⟨q, hq1, hq2⟩ := hq
    have hu : sortStr (((splitParamsForPath ep eps).2.map Prod.fst).filter
        (fun k => !(getAllowedQueryParamNames reg ep).contains k)) ≠ [] := by
      intro hnil
      have : q ∈ ((splitParamsForPath ep eps).2.map Prod.fst).filter
          (fun k => !(getAllowedQueryParamNames reg ep).contains k) := by
        rw [List.mem_filter]
        exact ⟨hq1, by simpa using hq2⟩
      rw [(sortStr_eq_nil_iff _).mp hnil] at this
      exact absurd this (List.not_mem_nil q)
    constructor
    · rw [hcall]
      simp only [hm, if_pos, if_neg, ne_eq, not_true_eq_false, if_false,
        not_false_eq_true, if_true, hu]
    · intro rp qp
      rw [hcall]
      simp only [hm, ne_eq, not_true_eq_false, if_false, hu, not_false_eq_true, if_true]
      intro hx
      exact DispatchOutcome.noConfusion hx
  · constructor
    · rw [hcall]
      simp only [ne_eq, hm, not_false_eq_true, if_true, if_neg, hm, if_pos]
    · intro rp qp
      rw [hcall]
      simp only [ne_eq, hm, not_false_eq_true, if_true]
      intro hx
      exact DispatchOutcome.noConfusion hx

theorem c1_validation_errors_witness :
    callGetInternal regW "/api/shorts/\x7bticker\x7d/data" [("bogus", Py.int 1)] =
      .errorResult (missingPayload ["ticker"] "/api/shorts/\x7bticker\x7d/data") ∧
    ∀ rp qp, callGetInternal regW "/api/shorts/\x7bticker\x7d/data" [("bogus", Py.int 1)]
      ≠ .request rp qp := by
  have h := c1_validation_errors regW "/api/shorts/\x7bticker\x7d/data"
    [("bogus", Py.int 1)] "/api/shorts/\x7bticker\x7d/data" [("bogus", Py.int 1)]
    rfl (Or.inl ⟨"ticker", by decide, by decide⟩)
  exact ⟨h.1, h.2⟩


/-! ## C7: inference merge and conflict detection -/

theorem findConflict_some_of_exists (inferred : List (String × String))
    (params : List (String × Py))
    (h : ∃ k v, (k, v) ∈ inferred ∧ paramsHas params k = true ∧
      pyStr (paramsGetD params k) ≠ v) :
    ∃ k0 v0, findConflict inferred params = some (k0, v0) ∧ (k0, v0) ∈ inferred ∧
      paramsHas params k0 = true ∧ pyStr (paramsGetD params k0) ≠ v0 := by
  induction inferred with
  | nil =>
      obtain ⟨k, v, hm, _, _⟩ := h
      exact absurd hm (List.not_mem_nil _)
  | cons kv rest ih =>
      obtain ⟨k, v⟩ := kv
      cases hp : paramsGet params k with
      | some pv =>
          by_cases hne : pyStr pv ≠ v
          · refine ⟨k, v, ?_, List.mem_cons_self _ _, ?_, ?_⟩
            · simp [findConflict, hp, hne]
            · simp [paramsHas, hp]
            · simpa [paramsGetD, hp] using hne
          · have hv : pyStr pv = v := by
              by_cases hx : pyStr pv = v
              · exact hx
              · exact absurd hx hne
            have hrec : findConflict ((k, v) :: rest) params = findConflict rest params := by
              simp [findConflict, hp, hv]
            obtain ⟨k2, v2, hm, hh, hd⟩ := h
            rcases List.mem_cons.mp hm with heq | hm2
            · exfalso
              obtain ⟨hk2, hv2⟩ := Prod.mk.injEq .. ▸ heq
              subst hk2; subst hv2
              rw [paramsGetD, hp] at hd
              exact hd hv
            · obtain ⟨k0, v0, h1, h2, h3, h4⟩ := ih ⟨k2, v2, hm2, hh, hd⟩
              exact ⟨k0, v0, by rw [hrec]; exact h1, List.mem_cons_of_mem _ h2, h3, h4⟩
      | none =>
          have hrec : findConflict ((k, v) :: rest) params = findConflict rest params := by
            simp [findConflict, hp]
          obtain ⟨k2, v2, hm, hh, hd⟩ := h
          rcases List.mem_cons.mp hm with heq | hm2
          · exfalso
            obtain ⟨hk2, _⟩ := Prod.mk.injEq .. ▸ heq
            subst hk2
            rw [paramsHas, hp] at hh
            simp at hh
          · obtain ⟨k0, v0, h1, h2, h3, h4⟩ := ih ⟨k2, v2, hm2, hh, hd⟩
            exact ⟨k0, v0, by rw [hrec]; exact h1, List.mem_cons_of_mem _ h2, h3, h4⟩

theorem paramsGet_append_single (ps : List (String × Py)) (j : String) (w : Py)
    (k : String) :
    paramsGet (ps ++ [(j, w)]) k =
      match paramsGet ps k with
      | some v => some v
      | Option.none => if j = k then some w else Option.none := by
  induction ps with
  | nil => simp [paramsGet]
  | cons kv rest ih =>
      obtain ⟨k2, v2⟩ := kv
      by_cases hk : k2 = k
      · simp [paramsGet, hk]
      · simp [paramsGet, hk, ih]

theorem mergeGo_preserves (inferred : List (String × String)) :
    ∀ (ps : List (String × Py)) (k : String), paramsHas ps k = true →
      paramsGet (inferred.foldl
        (fun a kv => if paramsHas a kv.1 then a else a ++ [(kv.1, Py.str kv.2)]) ps) k =
      paramsGet ps k := by
  induction inferred with
  | nil => intro ps k _; simp
  | cons jv rest ih =>
      intro ps k hk
      obtain ⟨j, v⟩ := jv
      simp only [List.foldl_cons]
      by_cases hj : paramsHas ps j = true
      · simp only [hj, if_true]
        exact ih ps k hk
      · have hj2 : paramsHas ps j = false := by
          cases hx : paramsHas ps j with
          | true => exact absurd hx hj
          | false => rfl
        simp only [hj2, Bool.false_eq_true, if_false]
        have hget : paramsGet (ps ++ [(j, Py.str v)]) k = paramsGet ps k := by
          rw [paramsGet_append_single]
          rw [paramsHas] at hk
          cases hg : paramsGet ps k with
          | some pv => rfl
          | none => rw [hg] at hk; simp at hk
        have hk2 : paramsHas (ps ++ [(j, Py.str v)]) k = true := by
          rw [paramsHas, hget]
          rw [paramsHas] at hk
          exact hk
        rw [ih _ k hk2, hget]

theorem mergeSetdefault_preserves (params : List (String × Py))
    (inferred : List (String × String)) (k : String) (h : paramsHas params k = true) :
    paramsGet (mergeSetdefault params inferred) k = paramsGet params k :=
  mergeGo_preserves inferred params k h

theorem mergeGo_has (inferred : List (String × String)) :
    ∀ (ps : List (String × Py)) (k : String) (v : String), (k, v) ∈ inferred →
      paramsHas (inferred.foldl
        (fun a kv => if paramsHas a kv.1 then a else a ++ [(kv.1, Py.str kv.2)]) ps) k
        = true := by
  induction inferred with
  | nil =>
      intro ps k v hm
      exact absurd hm (List.not_mem_nil _)
  | cons jv rest ih =>
      intro ps k v hm
      obtain ⟨j, w⟩ := jv
      simp only [List.foldl_cons]
      rcases List.mem_cons.mp hm with heq | hm2
      · obtain ⟨hk, _⟩ := Prod.mk.injEq .. ▸ heq
        subst hk
        by_cases hj : paramsHas ps k = true
        · simp only [hj, if_true]
          have := mergeGo_preserves rest ps k hj
          rw [paramsHas, this]
          rw [paramsHas] at hj
          exact hj
        · have hj2 : paramsHas ps k = false := by
            cases hx : paramsHas ps k with
            | true => exact absurd hx hj
            | false => rfl
          simp only [hj2, Bool.false_eq_true, if_false]
          have hk2 : paramsHas (ps ++ [(k, Py.str w)]) k = true := by
            rw [paramsHas, paramsGet_append_single]
            rw [paramsHas] at hj2
            cases hg : paramsGet ps k with
            | some pv => simp
            | none => simp
          have := mergeGo_preserves rest (ps ++ [(k, Py.str w)]) k hk2
          rw [paramsHas, this]
          rw [paramsHas] at hk2
          exact hk2
      · by_cases hj : paramsHas ps j = true
        · simp only [hj, if_true]
          exact ih ps k v hm2
        · have hj2 : paramsHas ps j = false := by
            cases hx : paramsHas ps j with
            | true => exact absurd hx hj
            | false => rfl
          simp only [hj2, Bool.false_eq_true, if_false]
          exact ih _ k v hm2

theorem mergeGo_other (rest : List (String × String)) :
    ∀ (ps : List (String × Py)) (k : String), k ∉ rest.map Prod.fst →
      paramsGet (rest.foldl
        (fun a kv => if paramsHas a kv.1 then a else a ++ [(kv.1, Py.str kv.2)]) ps) k =
      paramsGet ps k := by
  induction rest with
  | nil => intro ps k _; simp
  | cons jv tail ih =>
      intro ps k hk
      obtain ⟨j, w⟩ := jv
      have hjk : j ≠ k := by
        intro he
        subst he
        exact hk (by simp)
      have hk2 : k ∉ tail.map Prod.fst := by
        intro hm
        exact hk (by simp [hm])
      simp only [List.foldl_cons]
      by_cases hj : paramsHas ps j = true
      · simp only [hj, if_true]
        exact ih ps k hk2
      · have hj2 : paramsHas ps j = false := by
          cases hx : paramsHas ps j with
          | true => exact absurd hx hj
          | false => rfl
        simp only [hj2, Bool.false_eq_true, if_false]
        rw [ih _ k hk2, paramsGet_append_single]
        cases hg : paramsGet ps k with
        | some pv => rfl
        | none => simp [hjk]

theorem mergeSetdefault_new (params : List (String × Py))
    (inferred : List (String × String)) (k : String) (v : String)
    (hnd : (inferred.map Prod.fst).Nodup) (hm : (k, v) ∈ inferred)
    (hnew : paramsHas params k = false) :
    paramsGet (mergeSetdefault params inferred) k = some (Py.str v) := by
  induction inferred generalizing params with
  | nil => exact absurd hm (List.not_mem_nil _)
  | cons jv rest ih =>
      obtain ⟨j, w⟩ := jv
      simp only [List.map_cons, List.nodup_cons] at hnd
      obtain ⟨hj_notin, hnd2⟩ := hnd
      simp only [mergeSetdefault, List.foldl_cons]
      rcases List.mem_cons.mp hm with heq | hm2
      · obtain ⟨hk, hv⟩ := Prod.mk.injEq .. ▸ heq
        subst hk; subst hv
        simp only [hnew, Bool.false_eq_true, if_false]
        have hknotin : k ∉ rest.map Prod.fst := hj_notin
        rw [mergeGo_other rest _ k hknotin, paramsGet_append_single]
        rw [paramsHas] at hnew
        cases hg : paramsGet params k with
        | some pv => rw [hg] at hnew; simp at hnew
        | none => simp
      · have hjk : j ≠ k := by
          intro he
          subst he
          exact hj_notin (List.mem_map_of_mem Prod.fst hm2)
        by_cases hj : paramsHas params j = true
        · simp only [hj, if_true]
          exact ih params hnd2 hm2 hnew
        · have hj2 : paramsHas params j = false := by
            cases hx : paramsHas params j with
            | true => exact absurd hx hj
            | false => rfl
          simp only [hj2, Bool.false_eq_true, if_false]
          have hnew2 : paramsHas (params ++ [(j, Py.str w)]) k = false := by
            rw [paramsHas, paramsGet_append_single]
            rw [paramsHas] at hnew
            cases hg : paramsGet params k with
            | some pv => rw [hg] at hnew; simp at hnew
            | none => simp [hjk]
          exact ih _ hnd2 hm2 hnew2


/-- C7: for a dispatch whose path is not a registry key but is inferred to
a template, a caller-supplied value whose string form disagrees with an
inferred value makes the call fail with the mismatch payload naming the
(first such) key, both values and the matched template; with no
disagreement, every inferred pair is merged via setdefault — caller values
are never overwritten, every inferred key ends up present, and a
caller-absent key receives the inferred value. -/
theorem c7_inference_merge (reg : List (String × RegEntry)) (path : String)
    (params : List (String × Py)) (template : String)
    (inferred : List (String × String))
    (hnot : (reg.map Prod.fst).contains path = false)
    (hinf : inferTemplateAndParams path (reg.map Prod.fst) = some (template, inferred))
    (hnd : (inferred.map Prod.fst).Nodup) :
    ((∃ k v, (k, v) ∈ inferred ∧ paramsHas params k = true ∧
        pyStr (paramsGetD params k) ≠ v) →
      ∃ k0 v0, findConflict inferred params = some (k0, v0) ∧ (k0, v0) ∈ inferred ∧
        paramsHas params k0 = true ∧ pyStr (paramsGetD params k0) ≠ v0 ∧
        callGetInternal reg path params =
          .errorResult (mismatchPayload k0 v0 (pyStr (paramsGetD params k0)) template)) ∧
    (findConflict inferred params = Option.none →
      resolveEffective reg path params = .ok (template, mergeSetdefault params inferred) ∧
      (∀ k, paramsHas params k = true →
        paramsGet (mergeSetdefault params inferred) k = paramsGet params k) ∧
      (∀ k v, (k, v) ∈ inferred →
        paramsHas (mergeSetdefault params inferred) k = true) ∧
      (∀ k v, (k, v) ∈ inferred → paramsHas params k = false →
        paramsGet (mergeSetdefault params inferred) k = some (Py.str v))) := by
  constructor
  · intro hex
    obtain ⟨k0, v0, h1, h2, h3, h4⟩ := findConflict_some_of_exists inferred params hex
    refine ⟨k0, v0, h1, h2, h3, h4, ?_⟩
    have hre : resolveEffective reg path params =
        .error (mismatchPayload k0 v0 (pyStr (paramsGetD params k0)) template) := by
      simp only [resolveEffective, hnot, Bool.false_eq_true, if_false, hinf, h1]
    simp [callGetInternal, hre]
  · intro hnone
    have hre : resolveEffective reg path params =
        .ok (template, mergeSetdefault params inferred) := by
      simp only [resolveEffective, hnot, Bool.false_eq_true, if_false, hinf, hnone,
        mergeSetdefault]
    refine ⟨hre, ?_, ?_, ?_⟩
    · intro k hk
      exact mergeSetdefault_preserves params inferred k hk
    · intro k v hm
      exact mergeGo_has inferred params k v hm
    · intro k v hm hnew
      exact mergeSetdefault_new params inferred k v hnd hm hnew

theorem c7_inference_merge_witness :
    callGetInternal regW "/api/shorts/NVDA/data" [("ticker", Py.str "AMD")] =
      .errorResult (mismatchPayload "ticker" "NVDA" "AMD"
        "/api/shorts/\x7bticker\x7d/data") ∧
    paramsGet (mergeSetdefault [("limit", Py.int 5)] [("ticker", "NVDA")]) "ticker" =
      some (Py.str "NVDA") := by
  constructor
  · have h := (c7_inference_merge regW "/api/shorts/NVDA/data"
      [("ticker", Py.str "AMD")] "/api/shorts/\x7bticker\x7d/data"
      [("ticker", "NVDA")] (by decide) rfl (by decide)).1
      ⟨"ticker", "NVDA", by decide, by decide, by decide⟩
    obtain ⟨k0, v0, h1, _, _, _, h5⟩ := h
    have hk : (("ticker", "NVDA") : String × String) = (k0, v0) := by
      have h1c : findConflict [("ticker", "NVDA")] [("ticker", Py.str "AMD")] =
          some ("ticker", "NVDA") := rfl
      rw [h1c] at h1
      exact Option.some.inj h1
    obtain ⟨hk0, hv0⟩ := Prod.mk.injEq .. ▸ hk
    rw [← hk0, ← hv0] at h5
    exact h5
  · have h := (c7_inference_merge regW "/api/shorts/NVDA/data"
      [("limit", Py.int 5)] "/api/shorts/\x7bticker\x7d/data"
      [("ticker", "NVDA")] (by decide) rfl (by decide)).2 rfl
    exact h.2.2.2 "ticker" "NVDA" (by decide) (by decide)


/-! ## C10: reference-with-siblings precedence -/

theorem getKey_dictInsert_self (kvs : List (PyKey × Py)) (k : PyKey) (v : Py) :
    Py.getKey (Py.dictInsert kvs k v) k = some v := by
  induction kvs with
  | nil => simp [Py.dictInsert, Py.getKey]
  | cons kv rest ih =>
      obtain ⟨k2, v2⟩ := kv
      by_cases hk : k2 = k
      · simp [Py.dictInsert, hk, Py.getKey]
      · simp [Py.dictInsert, hk, Py.getKey, ih]

theorem getKey_dictInsert_ne (kvs : List (PyKey × Py)) (k : PyKey) (v : Py) (j : PyKey)
    (h : k ≠ j) :
    Py.getKey (Py.dictInsert kvs k v) j = Py.getKey kvs j := by
  have h2 : ¬ (k = j) := h
  induction kvs with
  | nil => simp [Py.dictInsert, Py.getKey, h2]
  | cons kv rest ih =>
      obtain ⟨k2, v2⟩ := kv
      by_cases hk : k2 = k
      · subst hk
        simp [Py.dictInsert, Py.getKey, h2]
      · have h3 : ¬ (j = k) := fun he => h2 he.symm
        by_cases hj : k2 = j
        · simp [Py.dictInsert, hk, Py.getKey, hj, h3]
        · simp [Py.dictInsert, hk, Py.getKey, hj, h3, ih]

theorem mergeWith_preserves (f : Py → PRes Py) (rest : List (PyKey × Py)) :
    ∀ (acc m : List (PyKey × Py)) (k : PyKey), k ∉ rest.map Prod.fst →
      mergeWith f acc rest = .ok m → Py.getKey m k = Py.getKey acc k := by
  induction rest with
  | nil =>
      intro acc m k _ h
      simp only [mergeWith, PRes.ok.injEq] at h
      rw [← h]
  | cons kv tail ih =>
      intro acc m k hk h
      obtain ⟨k3, v3⟩ := kv
      have hk3 : k3 ≠ k := by
        intro he; subst he; exact hk (by simp)
      have hk2 : k ∉ tail.map Prod.fst := by
        intro hm; exact hk (by simp [hm])
      by_cases hr : k3 = .s "$ref"
      · simp only [mergeWith, hr, if_true] at h
        exact ih acc m k hk2 h
      · simp only [mergeWith, hr, if_false] at h
        cases hd : f v3 with
        | ok dv3 =>
            rw [hd] at h
            have := ih _ m k hk2 h
            rw [this, getKey_dictInsert_ne _ _ _ _ hk3]
        | exn => rw [hd] at h; simp at h
        | div => rw [hd] at h; simp at h

theorem mergeWith_mem (f : Py → PRes Py) (sibs : List (PyKey × Py)) :
    ∀ (acc m : List (PyKey × Py)) (k : PyKey) (v dv : Py),
      (sibs.map Prod.fst).Nodup → (k, v) ∈ sibs → k ≠ .s "$ref" →
      mergeWith f acc sibs = .ok m → f v = .ok dv →
      Py.getKey m k = some dv := by
  induction sibs with
  | nil =>
      intro acc m k v dv _ hm _ _ _
      exact absurd hm (List.not_mem_nil _)
  | cons kv rest ih =>
      intro acc m k v dv hnd hm hkref h hdv
      obtain ⟨k2, v2⟩ := kv
      simp only [List.map_cons, List.nodup_cons] at hnd
      obtain ⟨hk2_notin, hnd2⟩ := hnd
      rcases List.mem_cons.mp hm with heq | hm2
      · obtain ⟨hk, hv⟩ := Prod.mk.injEq .. ▸ heq
        subst hk; subst hv
        simp only [mergeWith, hkref, if_false] at h
        rw [hdv] at h
        rw [mergeWith_preserves f rest _ m k hk2_notin h]
        exact getKey_dictInsert_self acc k dv
      · have hk2k : k2 ≠ k := by
          intro he; subst he
          exact hk2_notin (List.mem_map_of_mem Prod.fst hm2)
        by_cases hr : k2 = .s "$ref"
        · simp only [mergeWith, hr, if_true] at h
          exact ih acc m k v dv hnd2 hm2 hkref h hdv
        · simp only [mergeWith, hr, if_false] at h
          cases hd : f v2 with
          | ok dv2 =>
              rw [hd] at h
              exact ih _ m k v dv hnd2 hm2 hkref h hdv
          | exn => rw [hd] at h; simp at h
          | div => rw [hd] at h; simp at h

/-- C10: a schema node holding a $ref alongside sibling keys is shallow
simplified by summarizing only the resolved reference target — two nodes
with the same $ref and different siblings simplify identically — while
deep resolution resolves the reference first and then lets every sibling
override the referenced node on key collision (the opposite precedence). -/
theorem c10_ref_sibling_precedence (fuel : Nat) (spec r : Py)
    (sibs sibs2 : List (PyKey × Py)) (k : PyKey) (v : Py)
    (m : List (PyKey × Py)) (dv : Py) :
    (simplifySchema (fuel + 1) spec (.dict ((.s "$ref", r) :: sibs)) =
       simplifySchema (fuel + 1) spec (.dict ((.s "$ref", r) :: sibs2))) ∧
    ((sibs.map Prod.fst).Nodup → (k, v) ∈ sibs → k ≠ .s "$ref" →
      deepResolve (fuel + 1) spec (.dict ((.s "$ref", r) :: sibs)) = .ok (.dict m) →
      deepResolve fuel spec v = .ok dv →
      Py.getKey m k = some dv) := by
  have hhk : ∀ sb : List (PyKey × Py),
      Py.hasKey ((PyKey.s "$ref", r) :: sb) (.s "$ref") = true := by
    intro sb; simp [Py.hasKey, Py.getKey]
  have hkd : ∀ sb : List (PyKey × Py),
      Py.getKeyD ((PyKey.s "$ref", r) :: sb) (.s "$ref") .none = r := by
    intro sb; simp [Py.getKeyD, Py.getKey]
  constructor
  · simp only [simplifySchema, hhk sibs, hhk sibs2, if_true, hkd sibs, hkd sibs2]
  · intro hnd hm hkref hdeep hdv
    simp only [deepResolve, hhk sibs, if_true, hkd sibs] at hdeep
    cases hr : resolveRef spec r with
    | ok t =>
        simp only [hr] at hdeep
        cases hb : deepResolve fuel spec (Py.orEmptyDict t) with
        | ok base =>
            simp only [hb] at hdeep
            cases base with
            | dict basekvs =>
                rw [PRes.map_ok_iff] at hdeep
                obtain ⟨m2, hm2, hmeq⟩ := hdeep
                have hmm : m = m2 := by
                  cases hmeq; rfl
                subst hmm
                have hskip : mergeWith (deepResolve fuel spec) basekvs
                    ((PyKey.s "$ref", r) :: sibs) = .ok m := hm2
                simp only [mergeWith, if_true] at hskip
                exact mergeWith_mem (deepResolve fuel spec) sibs basekvs m k v dv
                  hnd hm hkref hskip hdv
            | none => simp at hdeep
            | bool b => simp at hdeep
            | int n => simp at hdeep
            | str s => simp at hdeep
            | list xs => simp at hdeep
        | exn => simp only [hb] at hdeep; exact PRes.noConfusion hdeep
        | div => simp only [hb] at hdeep; exact PRes.noConfusion hdeep
    | exn => simp only [hr] at hdeep; exact PRes.noConfusion hdeep
    | div => simp only [hr] at hdeep; exact PRes.noConfusion hdeep

theorem c10_ref_sibling_precedence_witness :
    (simplifySchema 3 (Py.dict [(.s "T", .dict [(.s "a", .int 1), (.s "b", .int 2)])])
        (.dict [(.s "$ref", .str "#/T"), (.s "a", .int 9)]) =
      simplifySchema 3 (Py.dict [(.s "T", .dict [(.s "a", .int 1), (.s "b", .int 2)])])
        (.dict [(.s "$ref", .str "#/T")])) ∧
    Py.getKey [(PyKey.s "a", Py.int 9), (PyKey.s "b", Py.int 2)] (.s "a") =
      some (.int 9) := by
  have h := c10_ref_sibling_precedence 2
    (Py.dict [(.s "T", .dict [(.s "a", .int 1), (.s "b", .int 2)])])
    (.str "#/T") [(PyKey.s "a", Py.int 9)] [] (.s "a") (.int 9)
    [(PyKey.s "a", Py.int 9), (PyKey.s "b", Py.int 2)] (.int 9)
  exact ⟨h.1, h.2 (by simp) (by simp) (by decide) rfl rfl⟩


/-! ## C8 amended: the discovery output forces required for path parameters -/

theorem bind_ok {α β : Type} (x : PRes α) (f : α → PRes β) (b : β)
    (h : x >>= f = .ok b) : ∃ a, x = .ok a ∧ f a = .ok b := by
  rw [show x >>= f = PRes.bind x f from rfl, PRes.bind_ok_iff] at h
  exact h

theorem PRes.pure_eq_ok {α : Type} (a : α) : (pure a : PRes α) = .ok a := rfl

theorem discoveryParam_required (p d : Py) (h : discoveryParam p = .ok d)
    (dkvs : List (PyKey × Py)) (hd : d = .dict dkvs)
    (hin : Py.eqStr (Py.getKeyD dkvs (.s "in") .none) "path" = true) :
    Py.truthy (Py.getKeyD dkvs (.s "required") .none) = true := by
  cases p with
  | dict pkvs =>
      simp only [discoveryParam, PRes.ok.injEq] at h
      subst h
      cases hd
      have hr : Py.getKeyD
          [(PyKey.s "name", Py.getKeyD pkvs (.s "name") .none),
           (PyKey.s "in", Py.getKeyD pkvs (.s "in") .none),
           (PyKey.s "required", Py.pyOr (Py.getKeyD pkvs (.s "required") (.bool false))
              (.bool (Py.eqStr (Py.getKeyD pkvs (.s "in") .none) "path"))),
           (PyKey.s "schema", Py.getKeyD pkvs (.s "schema") .none)] (.s "required") .none
          = Py.pyOr (Py.getKeyD pkvs (.s "required") (.bool false))
              (.bool (Py.eqStr (Py.getKeyD pkvs (.s "in") .none) "path")) := by
        simp [Py.getKeyD, Py.getKey]
      have hi : Py.getKeyD
          [(PyKey.s "name", Py.getKeyD pkvs (.s "name") .none),
           (PyKey.s "in", Py.getKeyD pkvs (.s "in") .none),
           (PyKey.s "required", Py.pyOr (Py.getKeyD pkvs (.s "required") (.bool false))
              (.bool (Py.eqStr (Py.getKeyD pkvs (.s "in") .none) "path"))),
           (PyKey.s "schema", Py.getKeyD pkvs (.s "schema") .none)] (.s "in") .none
          = Py.getKeyD pkvs (.s "in") .none := by
        simp [Py.getKeyD, Py.getKey]
      rw [hr]
      rw [hi] at hin
      rw [hin]
      by_cases ht : Py.truthy (Py.getKeyD pkvs (.s "required") (.bool false)) = true
      · rw [Py.pyOr, if_pos ht]
        exact ht
      · rw [Py.pyOr, if_neg ht]
        rfl
  | none => simp [discoveryParam] at h
  | bool b => simp [discoveryParam] at h
  | int n => simp [discoveryParam] at h
  | str s => simp [discoveryParam] at h
  | list xs => simp [discoveryParam] at h

theorem discoveryParams_mem : ∀ (ps out : List Py), discoveryParams ps = .ok out →
    ∀ d ∈ out, ∃ p, discoveryParam p = .ok d := by
  intro ps
  induction ps with
  | nil =>
      intro out h d hd
      simp only [discoveryParams, PRes.ok.injEq] at h
      subst h
      exact absurd hd (List.not_mem_nil _)
  | cons p rest ih =>
      intro out h d hd
      simp only [discoveryParams] at h
      obtain ⟨d0, hd0, h⟩ := bind_ok _ _ _ h
      obtain ⟨r0, hr0, h⟩ := bind_ok _ _ _ h
      simp only [PRes.pure_eq_ok, PRes.ok.injEq] at h
      subst h
      rcases List.mem_cons.mp hd with heq | hmem
      · exact ⟨p, by rw [hd0, heq]⟩
      · exact ih r0 hr0 d hmem

theorem searchOne_params (fuel : Nat) (spec : Py) (query : Option String) (path : PyKey)
    (entry : Py) (h : searchOne fuel spec query path = .ok (some entry)) :
    ∃ ekvs ps, entry = Py.dict ekvs ∧
      Py.getKey ekvs (.s "parameters") = some (.list ps) ∧
      ∀ d ∈ ps, ∃ p, discoveryParam p = .ok d := by
  unfold searchOne at h
  obtain ⟨op, hop, h⟩ := bind_ok _ _ _ h
  by_cases htr : Py.truthy op = true
  · simp only [htr, Bool.not_true, Bool.false_eq_true, if_false] at h
    cases op with
    | dict okvs =>
        simp only [] at h
        obtain ⟨excl, hexcl, h⟩ := bind_ok _ _ _ h
        cases excl with
        | true => simp [PRes.pure_eq_ok] at h
        | false =>
            simp only [Bool.false_eq_true, if_false] at h
            obtain ⟨params, hparams, h⟩ := bind_ok _ _ _ h
            obtain ⟨rs, hrs, h⟩ := bind_ok _ _ _ h
            obtain ⟨dparams, hdparams, h⟩ := bind_ok _ _ _ h
            have hmem := discoveryParams_mem params dparams hdparams
            cases query with
            | none =>
                simp only [PRes.pure_eq_ok, PRes.ok.injEq, Option.some.injEq] at h
                refine ⟨_, dparams, h.symm, ?_, hmem⟩
                simp [Py.getKey]
            | some q =>
                by_cases hq : q = ""
                · simp only [hq, if_true, PRes.pure_eq_ok, PRes.ok.injEq,
                    Option.some.injEq] at h
                  refine ⟨_, dparams, h.symm, ?_, hmem⟩
                  simp [Py.getKey]
                · simp only [hq, if_false] at h
                  obtain ⟨ts, hts, h⟩ := bind_ok _ _ _ h
                  obtain ⟨tj, htj, h⟩ := bind_ok _ _ _ h
                  obtain ⟨hay, hhay, h⟩ := bind_ok _ _ _ h
                  by_cases hin : strIn (pyLower q) (pyLower hay) = true
                  · simp only [hin, if_true, PRes.pure_eq_ok, PRes.ok.injEq,
                      Option.some.injEq] at h
                    refine ⟨_, dparams, h.symm, ?_, hmem⟩
                    simp [Py.getKey]
                  · simp only [hin, Bool.false_eq_true, if_false] at h
                    simp [PRes.pure_eq_ok] at h
    | none => simp [Py.truthy] at htr
    | bool b => simp at h
    | int n => simp at h
    | str s => simp at h
    | list xs => simp at h
  · have htr2 : Py.truthy op = false := by
      cases hx : Py.truthy op with
      | true => exact absurd hx htr
      | false => rfl
    simp only [htr2, Bool.not_false, if_true, PRes.pure_eq_ok] at h
    simp at h

theorem searchGo_mem (fuel : Nat) (spec : Py) (query : Option String) :
    ∀ (paths : List PyKey) (results : List Py),
      searchGo fuel spec query paths = .ok results →
      ∀ entry ∈ results, ∃ path, searchOne fuel spec query path = .ok (some entry) := by
  intro paths
  induction paths with
  | nil =>
      intro results h entry hm
      simp only [searchGo, PRes.ok.injEq] at h
      subst h
      exact absurd hm (List.not_mem_nil _)
  | cons path rest ih =>
      intro results h entry hm
      simp only [searchGo] at h
      obtain ⟨e, he, h⟩ := bind_ok _ _ _ h
      obtain ⟨r, hr, h⟩ := bind_ok _ _ _ h
      cases e with
      | some e0 =>
          simp only [PRes.pure_eq_ok, PRes.ok.injEq] at h
          subst h
          rcases List.mem_cons.mp hm with heq | hmem
          · exact ⟨path, by rw [he, heq]⟩
          · exact ih r hr entry hmem
      | none =>
          simp only [PRes.pure_eq_ok, PRes.ok.injEq] at h
          subst h
          exact ih r hr entry hm

/-- C8 amended: every parameter descriptor in the discovery output whose
location is path carries a truthy required field (exactly True when the
spec document leaves required unset or falsy); registry entries and the
parameter-introspection output, by contrast, keep the spec document's raw
value (see the counterexample). -/
theorem c8_discovery_required_amended (fuel : Nat) (spec : Py) (query : Option String)
    (res : Py) (h : searchEndpoints fuel spec query = .ok res) :
    ∀ results, Py.getKey (pyDictKvs res) (.s "paths") = some (.list results) →
    ∀ entry ∈ results, ∀ ekvs, entry = .dict ekvs →
    ∀ ps, Py.getKey ekvs (.s "parameters") = some (.list ps) →
    ∀ d ∈ ps, ∀ dkvs, d = .dict dkvs →
      Py.eqStr (Py.getKeyD dkvs (.s "in") .none) "path" = true →
      Py.truthy (Py.getKeyD dkvs (.s "required") .none) = true := by
  intro results hres entry hentry ekvs hekvs ps hps d hd dkvs hdkvs hin
  unfold searchEndpoints at h
  obtain ⟨paths, hpaths, h⟩ := bind_ok _ _ _ h
  obtain ⟨results0, hr0, h⟩ := bind_ok _ _ _ h
  simp only [PRes.pure_eq_ok, PRes.ok.injEq] at h
  subst h
  simp only [pyDictKvs, Py.getKey, reduceIte, Option.some.injEq, Py.list.injEq] at hres
  subst hres
  obtain ⟨path, hone⟩ := searchGo_mem fuel spec query paths results0 hr0 entry hentry
  obtain ⟨ekvs2, ps2, he2, hp2, hmem⟩ := searchOne_params fuel spec query path entry hone
  rw [hekvs] at he2
  have hekk : ekvs = ekvs2 := by
    cases he2; rfl
  subst hekk
  rw [hps] at hp2
  have hpp : ps = ps2 := by
    cases hp2; rfl
  subst hpp
  obtain ⟨p, hpd⟩ := hmem d hd
  exact discoveryParam_required p d hpd dkvs hdkvs hin

theorem c8_discovery_required_amended_witness :
    Py.truthy (Py.getKeyD
      [(PyKey.s "name", Py.str "t"), (PyKey.s "in", Py.str "path"),
       (PyKey.s "required", Py.bool true), (PyKey.s "schema", Py.none)]
      (.s "required") .none) = true := by
  have h := c8_discovery_required_amended 50 specW Option.none
    (Py.dict [(.s "paths", .list [Py.dict entryWkvs]), (.s "count", .int 1)])
    rfl
  exact h [Py.dict entryWkvs] rfl (Py.dict entryWkvs) (by simp) entryWkvs rfl
    [Py.dict [(.s "name", .str "t"), (.s "in", .str "path"),
              (.s "required", .bool true), (.s "schema", .none)],
     Py.dict [(.s "name", .str "q"), (.s "in", .str "query"),
              (.s "required", .bool false),
              (.s "schema", .dict [(.s "type", .str "string")])]]
    (by simp [entryWkvs, Py.getKey])
    (Py.dict [(.s "name", .str "t"), (.s "in", .str "path"),
              (.s "required", .bool true), (.s "schema", .none)])
    (by simp)
    [(.s "name", .str "t"), (.s "in", .str "path"),
     (.s "required", .bool true), (.s "schema", .none)]
    rfl (by decide)


/-! ## C9: registry entry invariants -/

theorem mem_insNum (a : Py × Int) (x : Py) (nx : Int) (l : List (Py × Int)) :
    a ∈ insNum x nx l ↔ a = (x, nx) ∨ a ∈ l := by
  induction l with
  | nil => simp [insNum]
  | cons y ys ih =>
      obtain ⟨y1, y2⟩ := y
      simp only [insNum]
      by_cases hle : y2 ≤ nx
      · rw [if_pos hle, List.mem_cons, ih, List.mem_cons]
        tauto
      · rw [if_neg hle, List.mem_cons, List.mem_cons]

theorem mem_insNum_fold (l : List (Py × Int)) :
    ∀ (acc : List (Py × Int)) (a : Py × Int),
      a ∈ l.foldl (fun acc p => insNum p.1 p.2 acc) acc → a ∈ acc ∨ a ∈ l := by
  induction l with
  | nil => intro acc a h; exact Or.inl h
  | cons p rest ih =>
      intro acc a h
      simp only [List.foldl_cons] at h
      rcases ih _ a h with hacc | hrest
      · rcases (mem_insNum a p.1 p.2 acc).mp hacc with heq | hacc2
        · right
          rw [heq, Prod.mk.eta]
          exact List.mem_cons_self _ _
        · exact Or.inl hacc2
      · right; exact List.mem_cons_of_mem _ hrest

theorem pySortPyList_mem (xs ys : List Py) (h : pySortPyList xs = .ok ys) :
    ∀ y ∈ ys, y ∈ xs := by
  intro y hy
  simp only [pySortPyList] at h
  by_cases h1 : xs.length ≤ 1
  · simp only [h1, if_true, PRes.ok.injEq] at h
    rw [← h] at hy
    exact hy
  · simp only [h1, if_false] at h
    by_cases h2 : xs.all (fun x => match x with | .str _ => true | _ => false) = true
    · simp only [h2, if_true, PRes.ok.injEq] at h
      rw [← h] at hy
      obtain ⟨s, hs, hys⟩ := List.mem_map.mp hy
      rw [mem_sortStr] at hs
      obtain ⟨x, hx, hxs⟩ := List.mem_map.mp hs
      have hxstr := List.all_eq_true.mp h2 x hx
      cases x with
      | str t =>
          simp only at hxs
          rw [← hys, ← hxs]
          exact hx
      | none => simp at hxstr
      | bool b => simp at hxstr
      | int n => simp at hxstr
      | list l => simp at hxstr
      | dict d => simp at hxstr
  -- numeric branch
    · simp only [h2, Bool.false_eq_true, if_false] at h
      by_cases h3 : xs.all (fun x => (pyNum x).isSome) = true
      · simp only [h3, if_true, PRes.ok.injEq] at h
        rw [← h] at hy
        obtain ⟨a, ha, hay⟩ := List.mem_map.mp hy
        rcases mem_insNum_fold _ [] a ha with hin | hin
        · exact absurd hin (List.not_mem_nil a)
        · obtain ⟨x, hx, hxa⟩ := List.mem_map.mp hin
          rw [← hay, ← hxa]
          exact hx
      · simp only [h3, Bool.false_eq_true, if_false] at h
        exact absurd h (by simp)

theorem queryNamesOf_mem (parameters : List Py) (qns : List Py)
    (h : queryNamesOf parameters = .ok qns) :
    ∀ v ∈ qns, ∃ q pkvs, q ∈ parameters ∧ q = Py.dict pkvs ∧
      Py.eqStr (Py.getKeyD pkvs (.s "in") .none) "query" = true ∧
      Py.getKeyD pkvs (.s "name") .none = v ∧ Py.truthy v = true := by
  intro v hv
  have hvin := pySortPyList_mem _ _ h v hv
  obtain ⟨q, hq, hqv⟩ := List.mem_filterMap.mp hvin
  cases q with
  | dict pkvs =>
      simp only at hqv
      by_cases hc : (Py.eqStr (Py.getKeyD pkvs (.s "in") .none) "query" &&
          Py.truthy (Py.getKeyD pkvs (.s "name") .none)) = true
      · rw [if_pos hc] at hqv
        have hcs := hc
        rw [Bool.and_eq_true] at hcs
        obtain ⟨hin, htr⟩ := hcs
        have hveq : Py.getKeyD pkvs (.s "name") .none = v := Option.some.inj hqv
        exact ⟨Py.dict pkvs, pkvs, hq, rfl, hin, hveq, by rw [← hveq]; exact htr⟩
      · rw [if_neg hc] at hqv
        exact absurd hqv (by simp)
  | none => simp at hqv
  | bool b => simp at hqv
  | int n => simp at hqv
  | str s => simp at hqv
  | list l => simp at hqv

theorem mem_dictInsert (kvs : List (PyKey × Py)) (k : PyKey) (v : Py)
    (a : PyKey × Py) (h : a ∈ Py.dictInsert kvs k v) : a = (k, v) ∨ a ∈ kvs := by
  induction kvs with
  | nil => simpa [Py.dictInsert] using h
  | cons kv rest ih =>
      obtain ⟨k2, v2⟩ := kv
      simp only [Py.dictInsert] at h
      by_cases hk : k2 = k
      · simp only [hk, if_true, List.mem_cons] at h
        rcases h with heq | hm
        · exact Or.inl heq
        · exact Or.inr (List.mem_cons_of_mem _ hm)
      · simp only [hk, if_false, List.mem_cons] at h
        rcases h with heq | hm
        · right; rw [heq]; exact List.mem_cons_self _ _
        · rcases ih hm with heq | hm2
          · exact Or.inl heq
          · exact Or.inr (List.mem_cons_of_mem _ hm2)

theorem buildEntry_shape (fuel : Nat) (spec : Py) (path pk : PyKey) (entry : Py)
    (h : buildEntry fuel spec path = .ok (some (pk, entry))) :
    ∃ p params qpn, pk = .s p ∧
      queryNamesOf params = .ok qpn ∧
      ∃ summary tags rs, entry = Py.dict
        [(.s "summary", summary),
         (.s "tags", tags),
         (.s "parameters", .list params),
         (.s "pathParamNames", .list ((sortedSet (pyFindPlaceholders p)).map .str)),
         (.s "queryParamNames", .list qpn),
         (.s "responseSchema", rs)] := by
  unfold buildEntry at h
  obtain ⟨op, hop, h⟩ := bind_ok _ _ _ h
  by_cases htr : Py.truthy op = true
  · simp only [htr, Bool.not_true, Bool.false_eq_true, if_false] at h
    cases op with
    | dict okvs =>
        simp only [] at h
        obtain ⟨params, hparams, h⟩ := bind_ok _ _ _ h
        obtain ⟨rs, hrs, h⟩ := bind_ok _ _ _ h
        obtain ⟨pathStr, hpath, h⟩ := bind_ok _ _ _ h
        obtain ⟨qpn, hqpn, h⟩ := bind_ok _ _ _ h
        simp only [PRes.pure_eq_ok, PRes.ok.injEq, Option.some.injEq,
          Prod.mk.injEq] at h
        obtain ⟨hpk, hent⟩ := h
        have hps : path = .s pathStr := by
          cases path with
          | s p => simp only [pathKeyStr, PRes.ok.injEq] at hpath; rw [hpath]
          | i n => simp [pathKeyStr] at hpath
        refine ⟨pathStr, params, qpn, ?_, hqpn, _, _, rs, hent.symm⟩
        rw [← hpk, hps]
    | none => simp [Py.truthy] at htr
    | bool b => simp at h
    | int n => simp at h
    | str s => simp at h
    | list xs => simp at h
  · have htr2 : Py.truthy op = false := by
      cases hx : Py.truthy op with
      | true => exact absurd hx htr
      | false => rfl
    simp only [htr2, Bool.not_false, if_true, PRes.pure_eq_ok] at h
    simp at h

theorem buildRegistryGo_mem (fuel : Nat) (spec : Py) :
    ∀ (paths : List PyKey) (reg : List (PyKey × Py)),
      buildRegistryGo fuel spec paths = .ok reg →
      ∀ pk entry, (pk, entry) ∈ reg →
        ∃ path, buildEntry fuel spec path = .ok (some (pk, entry)) := by
  intro paths
  induction paths with
  | nil =>
      intro reg h pk entry hm
      simp only [buildRegistryGo, PRes.ok.injEq] at h
      subst h
      exact absurd hm (List.not_mem_nil _)
  | cons path rest ih =>
      intro reg h pk entry hm
      simp only [buildRegistryGo] at h
      obtain ⟨e, he, h⟩ := bind_ok _ _ _ h
      obtain ⟨r, hr, h⟩ := bind_ok _ _ _ h
      cases e with
      | some kv =>
          simp only [PRes.pure_eq_ok, PRes.ok.injEq] at h
          subst h
          rcases mem_dictInsert r kv.1 kv.2 (pk, entry) hm with heq | hmem
          · refine ⟨path, ?_⟩
            rw [he, heq]
          · exact ih r hr pk entry hmem
      | none =>
          simp only [PRes.pure_eq_ok, PRes.ok.injEq] at h
          subst h
          exact ih r hr pk entry hm

/-- C9: every registry entry built by build_registry_shallow stores under
pathParamNames exactly the sorted set of brace-delimited placeholder names
of its template key, and every element of its queryParamNames is the
(truthy) name of one of its parameter descriptors whose location is
query. -/
theorem c9_registry_invariants (fuel : Nat) (spec : Py) (reg : List (PyKey × Py))
    (h : buildRegistryShallow fuel spec = .ok reg) :
    ∀ pk entry, (pk, entry) ∈ reg →
      ∃ p ekvs, pk = .s p ∧ entry = .dict ekvs ∧
        Py.getKey ekvs (.s "pathParamNames") =
          some (.list ((sortedSet (pyFindPlaceholders p)).map .str)) ∧
        ∃ params, Py.getKey ekvs (.s "parameters") = some (.list params) ∧
        ∀ qns, Py.getKey ekvs (.s "queryParamNames") = some (.list qns) →
        ∀ v ∈ qns, ∃ q pkvs, q ∈ params ∧ q = .dict pkvs ∧
          Py.eqStr (Py.getKeyD pkvs (.s "in") .none) "query" = true ∧
          Py.getKeyD pkvs (.s "name") .none = v ∧ Py.truthy v = true := by
  intro pk entry hm
  unfold buildRegistryShallow at h
  obtain ⟨paths, hpaths, h⟩ := bind_ok _ _ _ h
  obtain ⟨path, hbe⟩ := buildRegistryGo_mem fuel spec paths reg h pk entry hm
  obtain ⟨p, params, qpn, hpk, hqpn, summary, tags, rs, hent⟩ :=
    buildEntry_shape fuel spec path pk entry hbe
  refine ⟨p, _, hpk, hent, ?_, params, ?_, ?_⟩
  · simp [Py.getKey]
  · simp [Py.getKey]
  · intro qns hqns v hv
    have hqq : qpn = qns := by
      simp [Py.getKey] at hqns
      exact hqns
    subst hqq
    exact queryNamesOf_mem params qpn hqpn v hv


theorem c9_registry_invariants_witness :
    Py.getKey regEntryWkvs (.s "pathParamNames") = some (.list [.str "t"]) := by
  obtain ⟨p, ekvs, hpk, hent, hppn, hrest⟩ :=
    c9_registry_invariants 50 specW [(.s "/s/\x7bt\x7d", .dict regEntryWkvs)] rfl
      (.s "/s/\x7bt\x7d") (.dict regEntryWkvs) (by simp)
  have hp : "/s/\x7bt\x7d" = p := PyKey.s.inj hpk
  have he : regEntryWkvs = ekvs := Py.dict.inj hent
  rw [← hp] at hppn
  rw [← he] at hppn
  exact hppn


/-! ## C4 amended: tie-breaking characterization of the matcher -/

theorem char_eq_of_toNat_eq {a b : Char} (h : a.toNat = b.toNat) : a = b := by
  have h2 : a.val = b.val := by
    apply UInt32.ext
    simpa [Char.toNat] using h
  exact Char.eq_of_val_eq h2

theorem strLt_self (a : List Char) : strLt a a = false := by
  induction a with
  | nil => rfl
  | cons c cs ih => simp [strLt, ih]

theorem strLt_asymm (a b : List Char) (h : strLt a b = true) : strLt b a = false := by
  induction a generalizing b with
  | nil =>
      cases b with
      | nil => simpa [strLt] using h
      | cons d ds => simp [strLt]
  | cons c cs ih =>
      cases b with
      | nil => simp [strLt] at h
      | cons d ds =>
          simp only [strLt] at h ⊢
          by_cases h1 : c.toNat < d.toNat
          · simp only [h1, if_true] at h
            have h2 : ¬ (d.toNat < c.toNat) := by omega
            simp [h2, h1]
          · simp only [h1, if_false] at h
            by_cases h2 : d.toNat < c.toNat
            · simp [h2] at h
            · simp only [h2, if_false] at h
              simp [h1, h2, ih ds h]

theorem strLt_trans (a b c : List Char) (h1 : strLt a b = true) (h2 : strLt b c = true) :
    strLt a c = true := by
  induction a generalizing b c with
  | nil =>
      cases c with
      | nil =>
          cases b with
          | nil => simpa [strLt] using h1
          | cons d ds => simp [strLt] at h2
      | cons e es => simp [strLt]
  | cons x xs ih =>
      cases b with
      | nil => simp [strLt] at h1
      | cons y ys =>
          cases c with
          | nil => simp [strLt] at h2
          | cons z zs =>
              simp only [strLt] at h1 h2 ⊢
              by_cases hxy : x.toNat < y.toNat
              · by_cases hyz : y.toNat < z.toNat
                · have : x.toNat < z.toNat := by omega
                  simp [this]
                · simp only [hyz, if_false] at h2
                  by_cases hzy : z.toNat < y.toNat
                  · simp [hzy] at h2
                  · have hy : y.toNat = z.toNat := by omega
                    have : x.toNat < z.toNat := by omega
                    simp [this]
              · simp only [hxy, if_false] at h1
                by_cases hyx : y.toNat < x.toNat
                · simp [hyx] at h1
                · have hx : x.toNat = y.toNat := by omega
                  by_cases hyz : y.toNat < z.toNat
                  · have : x.toNat < z.toNat := by omega
                    simp [this]
                  · simp only [hyz, if_false] at h2
                    by_cases hzy : z.toNat < y.toNat
                    · simp [hzy] at h2
                    · simp only [hzy, if_false] at h2
                      have hy : y.toNat = z.toNat := by omega
                      have hxz : ¬ (x.toNat < z.toNat) := by omega
                      have hzx : ¬ (z.toNat < x.toNat) := by omega
                      simp only [hxz, if_false, hzx]
                      simp only [hyx, if_false] at h1
                      exact ih ys zs h1 h2

theorem strLt_total (a b : List Char) (h1 : strLt a b = false) (h2 : strLt b a = false) :
    a = b := by
  induction a generalizing b with
  | nil =>
      cases b with
      | nil => rfl
      | cons d ds => simp [strLt] at h1
  | cons c cs ih =>
      cases b with
      | nil => simp [strLt] at h2
      | cons d ds =>
          simp only [strLt] at h1 h2
          by_cases hcd : c.toNat < d.toNat
          · simp [hcd] at h1
          · by_cases hdc : d.toNat < c.toNat
            · simp [hdc, hcd] at h2
            · simp only [hcd, if_false, hdc] at h1 h2
              have hc : c = d := char_eq_of_toNat_eq (by omega)
              rw [hc, ih ds h1 h2]

theorem strLtS_self (s : String) : strLtS s s = false := strLt_self s.data

theorem strLtS_asymm (a b : String) (h : strLtS a b = true) : strLtS b a = false :=
  strLt_asymm a.data b.data h

theorem strLtS_trans (a b c : String) (h1 : strLtS a b = true) (h2 : strLtS b c = true) :
    strLtS a c = true := strLt_trans a.data b.data c.data h1 h2

theorem strLtS_total (a b : String) (h1 : strLtS a b = false) (h2 : strLtS b a = false) :
    a = b := by
  have h3 := strLt_total a.data b.data h1 h2
  cases a with
  | mk dataA =>
      cases b with
      | mk dataB =>
          exact congrArg String.mk h3

theorem candGt_self (a : Cand) : candGt a a = false := by
  simp [candGt, strLtS_self]

theorem candGt_iff (a b : Cand) :
    candGt a b = true ↔ b.1 < a.1 ∨ (a.1 = b.1 ∧ a.2.1 < b.2.1) ∨
      (a.1 = b.1 ∧ a.2.1 = b.2.1 ∧ strLtS b.2.2.1 a.2.2.1 = true) := by
  unfold candGt
  by_cases e1 : a.1 = b.1
  · by_cases e2 : a.2.1 = b.2.1
    · simp [e1, e2]
    · simp [e1, e2]
      try omega
  · simp [e1]
    try omega
    try (constructor
         · intro h; exact ⟨h, fun he => absurd he e1⟩
         · intro h; exact h.1)

theorem candGt_false_iff (a b : Cand) :
    candGt a b = false ↔ a.1 < b.1 ∨ (a.1 = b.1 ∧ b.2.1 < a.2.1) ∨
      (a.1 = b.1 ∧ a.2.1 = b.2.1 ∧ strLtS b.2.2.1 a.2.2.1 = false) := by
  unfold candGt
  by_cases e1 : a.1 = b.1
  · by_cases e2 : a.2.1 = b.2.1
    · simp [e1, e2]
    · simp [e1, e2]
      omega
  · simp [e1]
    omega

theorem candGt_le_trans (x y z : Cand) (h1 : candGt x y = false)
    (h2 : candGt y z = false) : candGt x z = false := by
  rw [candGt_false_iff] at h1 h2 ⊢
  rcases h1 with h1 | ⟨e1, h1⟩ | ⟨e1, f1, g1⟩
  · rcases h2 with h2 | ⟨e2, _⟩ | ⟨e2, _, _⟩ <;> left <;> omega
  · rcases h2 with h2 | ⟨e2, h2⟩ | ⟨e2, f2, g2⟩
    · left; omega
    · right; left; exact ⟨by omega, by omega⟩
    · right; left; exact ⟨by omega, by omega⟩
  · rcases h2 with h2 | ⟨e2, h2⟩ | ⟨e2, f2, g2⟩
    · left; omega
    · right; left; exact ⟨by omega, by omega⟩
    · right; right
      refine ⟨by omega, by omega, ?_⟩
      by_cases hzx : strLtS z.2.2.1 x.2.2.1 = true
      · by_cases hxy : strLtS x.2.2.1 y.2.2.1 = true
        · exact absurd (strLtS_trans _ _ _ hzx hxy) (by simp [g2])
        · have hxy2 : strLtS x.2.2.1 y.2.2.1 = false := by
            cases hx : strLtS x.2.2.1 y.2.2.1 with
            | true => exact absurd hx hxy
            | false => rfl
          have hxyeq : x.2.2.1 = y.2.2.1 := strLtS_total _ _ hxy2 g1
          rw [← hxyeq] at g2
          exact absurd hzx (by simp [g2])
      · cases hx : strLtS z.2.2.1 x.2.2.1 with
        | true => exact absurd hx hzx
        | false => rfl

theorem candGt_lt_le (a b c : Cand) (h1 : candGt a b = true)
    (h2 : candGt a c = false) : candGt b c = false := by
  rw [candGt_iff] at h1
  rw [candGt_false_iff] at h2 ⊢
  rcases h1 with h1 | ⟨e1, h1⟩ | ⟨e1, f1, g1⟩
  · rcases h2 with h2 | ⟨e2, _⟩ | ⟨e2, _, _⟩ <;> left <;> omega
  · rcases h2 with h2 | ⟨e2, h2⟩ | ⟨e2, f2, g2⟩
    · left; omega
    · right; left; exact ⟨by omega, by omega⟩
    · right; left; exact ⟨by omega, by omega⟩
  · rcases h2 with h2 | ⟨e2, h2⟩ | ⟨e2, f2, g2⟩
    · left; omega
    · right; left; exact ⟨by omega, by omega⟩
    · right; right
      refine ⟨by omega, by omega, ?_⟩
      by_cases hcb : strLtS c.2.2.1 b.2.2.1 = true
      · exact absurd (strLtS_trans _ _ _ hcb g1) (by simp [g2])
      · cases hx : strLtS c.2.2.1 b.2.2.1 with
        | true => exact absurd hx hcb
        | false => rfl

theorem pickTop_fold_spec (cs : List Cand) :
    ∀ b : Cand,
      ((cs.foldl (fun best x => if candGt x best then x else best) b) = b ∨
        (cs.foldl (fun best x => if candGt x best then x else best) b) ∈ cs) ∧
      candGt b (cs.foldl (fun best x => if candGt x best then x else best) b) = false ∧
      ∀ x ∈ cs,
        candGt x (cs.foldl (fun best x => if candGt x best then x else best) b) = false := by
  induction cs with
  | nil =>
      intro b
      refine ⟨Or.inl rfl, ?_, ?_⟩
      · exact candGt_self b
      · intro x hx; exact absurd hx (List.not_mem_nil x)
  | cons y ys ih =>
      intro b
      simp only [List.foldl_cons]
      by_cases hyb : candGt y b = true
      · rw [if_pos hyb]
        obtain ⟨hmem, hble, hall⟩ := ih y
        refine ⟨?_, ?_, ?_⟩
        · rcases hmem with h | h
          · exact Or.inr (by rw [h]; exact List.mem_cons_self _ _)
          · exact Or.inr (List.mem_cons_of_mem _ h)
        · exact candGt_lt_le y b _ hyb hble
        · intro x hx
          rcases List.mem_cons.mp hx with heq | hm
          · rw [heq]; exact hble
          · exact hall x hm
      · have hyb2 : candGt y b = false := by
          cases hx : candGt y b with
          | true => exact absurd hx hyb
          | false => rfl
        rw [if_neg hyb]
        obtain ⟨hmem, hble, hall⟩ := ih b
        refine ⟨?_, hble, ?_⟩
        · rcases hmem with h | h
          · exact Or.inl h
          · exact Or.inr (List.mem_cons_of_mem _ h)
        · intro x hx
          rcases List.mem_cons.mp hx with heq | hm
          · rw [heq]
            exact candGt_le_trans y b _ hyb2 hble
          · exact hall x hm

/-- C4 amended: the matcher returns the candidate that is maximal for the
stored tuple order — no candidate strictly exceeds it, and among
candidates tied on both literal-match count and inferred-parameter count
the winner is the one with the code-point-greatest template string,
independent of registry iteration order. -/
theorem c4_tiebreak_amended (concrete : String) (keys : List String)
    (h : inferCandidates concrete keys ≠ []) :
    ∃ c : Cand, pickTop (inferCandidates concrete keys) = some c ∧
      inferTemplateAndParams concrete keys = some (c.2.2.1, c.2.2.2) ∧
      c ∈ inferCandidates concrete keys ∧
      (∀ d ∈ inferCandidates concrete keys, candGt d c = false) ∧
      (∀ d ∈ inferCandidates concrete keys, d.1 = c.1 → d.2.1 = c.2.1 →
        strLtS c.2.2.1 d.2.2.1 = false) := by
  cases hc : inferCandidates concrete keys with
  | nil => exact absurd hc h
  | cons c0 cs0 =>
      obtain ⟨hmem, hble, hall⟩ := pickTop_fold_spec cs0 c0
      refine ⟨cs0.foldl (fun best x => if candGt x best then x else best) c0,
        by simp [pickTop], ?_, ?_, ?_, ?_⟩
      · simp [inferTemplateAndParams, hc, pickTop]
      · rcases hmem with h2 | h2
        · rw [h2]; exact List.mem_cons_self _ _
        · exact List.mem_cons_of_mem _ h2
      · intro d hd
        rcases List.mem_cons.mp hd with heq | hm
        · rw [heq]; exact hble
        · exact hall d hm
      · intro d hd e1 e2
        have hgt : candGt d (cs0.foldl (fun best x => if candGt x best then x else best) c0)
            = false := by
          rcases List.mem_cons.mp hd with heq | hm
          · rw [heq]; exact hble
          · exact hall d hm
        rw [candGt_false_iff] at hgt
        rcases hgt with h2 | ⟨_, h2⟩ | ⟨_, _, h2⟩
        · omega
        · omega
        · exact h2

theorem c4_tiebreak_amended_witness :
    inferTemplateAndParams "/a/foo" ["/a/\x7bx\x7d", "/a/\x7by\x7d"] =
      some ("/a/\x7by\x7d", [("y", "foo")]) ∧
    strLtS "/a/\x7by\x7d" "/a/\x7bx\x7d" = false := by
  obtain ⟨c, hpick, hres, hmem, hmax, htie⟩ :=
    c4_tiebreak_amended "/a/foo" ["/a/\x7bx\x7d", "/a/\x7by\x7d"] (by decide)
  have hcval : c = (1, 1, "/a/\x7by\x7d", [("y", "foo")]) := by
    have : pickTop (inferCandidates "/a/foo" ["/a/\x7bx\x7d", "/a/\x7by\x7d"]) =
        some (1, 1, "/a/\x7by\x7d", [("y", "foo")]) := by decide
    rw [this] at hpick
    exact (Option.some.inj hpick).symm
  subst hcval
  refine ⟨hres, ?_⟩
  exact htie (1, 1, "/a/\x7bx\x7d", [("x", "foo")]) (by decide) rfl rfl


/-! ## C5 amended: substitute-then-infer round trip under uniqueness -/

theorem strDictInsert_notmem (kvs : List (String × String)) (k v : String)
    (h : (kvs.map Prod.fst).contains k = false) :
    strDictInsert kvs k v = kvs ++ [(k, v)] := by
  induction kvs with
  | nil => simp [strDictInsert]
  | cons kv2 rest ih =>
      obtain ⟨k2, v2⟩ := kv2
      simp only [List.map_cons, List.contains_cons] at h
      have hk2 : ¬ (k2 = k) := by
        intro he
        rw [he] at h
        simp at h
      have hrest : (rest.map Prod.fst).contains k = false := by
        cases hx : (rest.map Prod.fst).contains k with
        | true => rw [hx] at h; simp at h
        | false => rfl
      simp [strDictInsert, hk2, ih hrest]

theorem matchSegsGo_self (vals : String → String) (tsegs : List String) :
    ∀ (acc : List (String × String)) (n : Nat),
      (∀ seg ∈ tsegs, segIsPlaceholder seg = true → segName seg ≠ "") →
      ((tsegs.filter segIsPlaceholder).map segName).Nodup →
      (∀ name ∈ (tsegs.filter segIsPlaceholder).map segName,
        (acc.map Prod.fst).contains name = false) →
      matchSegsGo acc n tsegs
        (tsegs.map (fun seg => if segIsPlaceholder seg then vals (segName seg) else seg)) =
      some (n + (tsegs.filter (fun s => !segIsPlaceholder s)).length,
        acc ++ ((tsegs.filter segIsPlaceholder).map segName).map (fun k => (k, vals k))) := by
  induction tsegs with
  | nil =>
      intro acc n _ _ _
      simp [matchSegsGo]
  | cons tseg rest ih =>
      intro acc n hwf hnd hacc
      by_cases hph : segIsPlaceholder tseg = true
      · have hname : segName tseg ≠ "" := hwf tseg (List.mem_cons_self _ _) hph
        have hfilter : (tseg :: rest).filter segIsPlaceholder =
            tseg :: rest.filter segIsPlaceholder := by
          simp [List.filter_cons, hph]
        have hfilterlit : (tseg :: rest).filter (fun s => !segIsPlaceholder s) =
            rest.filter (fun s => !segIsPlaceholder s) := by
          simp [List.filter_cons, hph]
        have hnames : ((tseg :: rest).filter segIsPlaceholder).map segName =
            segName tseg :: (rest.filter segIsPlaceholder).map segName := by
          rw [hfilter, List.map_cons]
        rw [hnames] at hnd hacc
        have hnd2 := (List.nodup_cons.mp hnd).2
        have hnotin := (List.nodup_cons.mp hnd).1
        have haccname := hacc (segName tseg) (List.mem_cons_self _ _)
        simp only [List.map_cons, hph, if_true]
        rw [show matchSegsGo acc n (tseg :: rest)
            (vals (segName tseg) ::
              rest.map (fun seg => if segIsPlaceholder seg then vals (segName seg) else seg)) =
            if segIsPlaceholder tseg = true then
              (if segName tseg = "" then Option.none
               else matchSegsGo (strDictInsert acc (segName tseg) (vals (segName tseg))) n rest
                 (rest.map (fun seg => if segIsPlaceholder seg then vals (segName seg) else seg)))
            else (if tseg = vals (segName tseg) then
              matchSegsGo acc (n + 1) rest
                (rest.map (fun seg => if segIsPlaceholder seg then vals (segName seg) else seg))
              else Option.none) from rfl]
        rw [if_pos hph, if_neg hname]
        rw [strDictInsert_notmem acc (segName tseg) (vals (segName tseg)) haccname]
        have hacc2 : ∀ name ∈ (rest.filter segIsPlaceholder).map segName,
            (((acc ++ [(segName tseg, vals (segName tseg))]).map Prod.fst)).contains name
              = false := by
          intro name hnm
          have h1 := hacc name (List.mem_cons_of_mem _ hnm)
          have h2 : ¬ (name = segName tseg) := by
            intro he
            rw [he] at hnm
            exact hnotin hnm
          have h1b : name ∉ acc.map Prod.fst := by simpa using h1
          simp [h1b, h2]
        rw [ih (acc ++ [(segName tseg, vals (segName tseg))]) n
          (fun seg hm hp => hwf seg (List.mem_cons_of_mem _ hm) hp) hnd2 hacc2]
        rw [hfilterlit, hnames]
        simp [List.append_assoc]
      · have hph2 : segIsPlaceholder tseg = false := by
          cases hx : segIsPlaceholder tseg with
          | true => exact absurd hx hph
          | false => rfl
        have hfilter : (tseg :: rest).filter segIsPlaceholder =
            rest.filter segIsPlaceholder := by
          simp [List.filter_cons, hph2]
        have hfilterlit : (tseg :: rest).filter (fun s => !segIsPlaceholder s) =
            tseg :: rest.filter (fun s => !segIsPlaceholder s) := by
          simp [List.filter_cons, hph2]
        rw [hfilter] at hnd hacc
        simp only [List.map_cons, hph2, Bool.false_eq_true, if_false]
        rw [show matchSegsGo acc n (tseg :: rest)
            (tseg ::
              rest.map (fun seg => if segIsPlaceholder seg then vals (segName seg) else seg)) =
            if segIsPlaceholder tseg = true then
              (if segName tseg = "" then Option.none
               else matchSegsGo (strDictInsert acc (segName tseg) tseg) n rest
                 (rest.map (fun seg => if segIsPlaceholder seg then vals (segName seg) else seg)))
            else (if tseg = tseg then
              matchSegsGo acc (n + 1) rest
                (rest.map (fun seg => if segIsPlaceholder seg then vals (segName seg) else seg))
              else Option.none) from rfl]
        rw [if_neg (by simp [hph2]), if_pos rfl]
        rw [ih acc (n + 1)
          (fun seg hm hp => hwf seg (List.mem_cons_of_mem _ hm) hp) hnd hacc]
        rw [hfilterlit, hfilter]
        simp only [List.length_cons, Option.some.injEq, Prod.mk.injEq]
        constructor
        · omega
        · trivial

theorem foldl_pick_const (cs : List Cand) :
    ∀ b : Cand, (∀ x ∈ cs, x = b) →
      cs.foldl (fun best x => if candGt x best then x else best) b = b := by
  induction cs with
  | nil => intro b _; rfl
  | cons y ys ih =>
      intro b hall
      have hy : y = b := hall y (List.mem_cons_self _ _)
      simp only [List.foldl_cons, hy]
      have : (if candGt b b then b else b) = b := by
        by_cases h : candGt b b = true <;> simp [h]
      rw [this]
      exact ih b (fun x hx => hall x (List.mem_cons_of_mem _ hx))

/-- C5 amended: for a template whose placeholder segments carry distinct
non-empty names, substituting values for the placeholders and running the
matcher on the resulting concrete path returns exactly that template with
the substitution map — provided no other registry template also matches
the concrete path (without that proviso the claim fails, see the
counterexample: a substituted value can collide with another template's
literal segment and outrank the original). -/
theorem c5_roundtrip_amended (T : String) (keys : List String) (vals : String → String)
    (c : String)
    (hT : T ∈ keys)
    (hwf : ∀ seg ∈ splitSegments T, segIsPlaceholder seg = true → segName seg ≠ "")
    (hnd : (orderedPhNames T).Nodup)
    (hc : splitSegments c = (splitSegments T).map
      (fun seg => if segIsPlaceholder seg then vals (segName seg) else seg))
    (huniq : ∀ T2 ∈ keys, T2 ≠ T → candidateOf (splitSegments c) T2 = Option.none) :
    inferTemplateAndParams c keys =
      some (T, (orderedPhNames T).map (fun k => (k, vals k))) := by
  have hmatch : matchSegsGo [] 0 (splitSegments T) (splitSegments c) =
      some (((splitSegments T).filter (fun s => !segIsPlaceholder s)).length,
        (orderedPhNames T).map (fun k => (k, vals k))) := by
    rw [hc]
    have := matchSegsGo_self vals (splitSegments T) [] 0 hwf hnd (by intro name _; rfl)
    rw [this]
    simp [orderedPhNames]
  have hcand : candidateOf (splitSegments c) T =
      some (((splitSegments T).filter (fun s => !segIsPlaceholder s)).length,
        ((orderedPhNames T).map (fun k => (k, vals k))).length, T,
        (orderedPhNames T).map (fun k => (k, vals k))) := by
    unfold candidateOf
    rw [if_neg (by rw [hc]; simp), hmatch]
    rfl
  have hall : ∀ x ∈ inferCandidates c keys,
      x = (((splitSegments T).filter (fun s => !segIsPlaceholder s)).length,
        ((orderedPhNames T).map (fun k => (k, vals k))).length, T,
        (orderedPhNames T).map (fun k => (k, vals k))) := by
    intro x hx
    obtain ⟨k, hk, hkx⟩ := List.mem_filterMap.mp hx
    by_cases hkT : k = T
    · rw [hkT, hcand] at hkx
      exact (Option.some.inj hkx).symm
    · rw [huniq k hk hkT] at hkx
      exact absurd hkx (by simp)
  have hmem : (((splitSegments T).filter (fun s => !segIsPlaceholder s)).length,
        ((orderedPhNames T).map (fun k => (k, vals k))).length, T,
        (orderedPhNames T).map (fun k => (k, vals k))) ∈ inferCandidates c keys := by
    exact List.mem_filterMap.mpr ⟨T, hT, hcand⟩
  cases hcands : inferCandidates c keys with
  | nil =>
      rw [hcands] at hmem
      exact absurd hmem (List.not_mem_nil _)
  | cons c0 cs0 =>
      rw [hcands] at hall
      have hc0 := hall c0 (List.mem_cons_self _ _)
      simp only [inferTemplateAndParams]
      rw [hcands]
      simp only [pickTop]
      rw [foldl_pick_const cs0 c0 (fun x hx => by
        rw [hc0]
        exact hall x (List.mem_cons_of_mem _ hx))]
      rw [hc0]
      rfl

theorem c5_roundtrip_amended_witness :
    inferTemplateAndParams "/api/shorts/NVDA/data"
      ["/api/shorts/\x7bticker\x7d/data", "/api/x"] =
      some ("/api/shorts/\x7bticker\x7d/data", [("ticker", "NVDA")]) := by
  have h := c5_roundtrip_amended "/api/shorts/\x7bticker\x7d/data"
    ["/api/shorts/\x7bticker\x7d/data", "/api/x"] (fun _ => "NVDA")
    "/api/shorts/NVDA/data" (by decide) (by decide) (by decide) (by decide)
    (by
      intro T2 hT2 hne
      simp only [List.mem_cons, List.not_mem_nil, or_false] at hT2
      rcases hT2 with h | h
      · exact absurd h hne
      · subst h
        decide)
  exact h

end Uwmcp
